import Mathlib

/-!
Verification development for the CoderBot repository: a shallow embedding of
the output evaluator (`evaluator.py`), the sandboxed executor (`executor.py`),
the error normalizer and the retry orchestrator (`main.py`), together with
proofs of the specification claims about them.

Strings are modelled as Lean `String`/`List Char`.  Python's `float` values
are modelled as exact rationals extended with `inf`/`-inf`/`nan` (IEEE-754
rounding of finite values is not modelled; the special-value arithmetic that
the claims depend on is).  Python's `str.strip()` whitespace set is modelled
as the ASCII whitespace characters.
-/

/-! ## Python string helpers -/

/-- Whitespace predicate used by Python's `str.strip()` (ASCII subset). -/
def isSpaceC (c : Char) : Bool :=
  c = ' ' || c = '\t' || c = '\n' || c = '\r' || c = '\x0b' || c = '\x0c'

/-- Model of Python `str.strip()` on character lists: remove leading and
trailing whitespace. -/
def stripChars (l : List Char) : List Char :=
  (l.dropWhile isSpaceC).rdropWhile isSpaceC

/-- Model of Python `str.strip()` on strings. -/
def pyStrip (s : String) : String :=
  (stripChars s.toList).asString

/-! ## Output evaluator (`evaluator.py`)

`evaluate_output` first tries `float(actual.strip())` and
`float(expected.strip())`; if both conversions succeed it compares
`abs(actual - expected) < 1e-6`, otherwise (a `ValueError` from either
conversion) it falls back to string equality of the stripped strings. -/

/-- Model of a Python `float` value: an exact rational (kept as an
unnormalized numerator/positive-denominator pair so the kernel can compute
with it) for finite values, plus the IEEE special values that `float()` can
parse. -/
inductive PyFloat where
  | finite (num : ℤ) (den : ℕ)
  | inf
  | neginf
  | nan
deriving DecidableEq, Repr

/-- Numeric value of a list of ASCII digits. -/
def digitsVal (l : List Char) : ℕ :=
  l.foldl (fun a c => 10 * a + (c.toNat - 48)) 0

/-- Parse an optional exponent suffix (`e`/`E`, optional sign, digits) which
must consume the whole remaining input, scaling the mantissa `n / d`. -/
def parseExp (n : ℤ) (d : ℕ) : List Char → Option PyFloat
  | [] => some (.finite n d)
  | c :: r =>
    if c = 'e' ∨ c = 'E' then
      match r with
      | '+' :: ds =>
        if ds ≠ [] ∧ ds.dropWhile Char.isDigit = [] then
          some (.finite (n * 10 ^ digitsVal ds) d)
        else none
      | '-' :: ds =>
        if ds ≠ [] ∧ ds.dropWhile Char.isDigit = [] then
          some (.finite n (d * 10 ^ digitsVal ds))
        else none
      | ds =>
        if ds ≠ [] ∧ ds.dropWhile Char.isDigit = [] then
          some (.finite (n * 10 ^ digitsVal ds) d)
        else none
    else none

/-- Parse an unsigned decimal numeral `digits [. digits] [exp]` with at least
one mantissa digit, as an exact rational value. -/
def parseDecimal (l : List Char) : Option PyFloat :=
  let ip := l.takeWhile Char.isDigit
  let r1 := l.dropWhile Char.isDigit
  match r1 with
  | '.' :: r2 =>
    let fp := r2.takeWhile Char.isDigit
    let r3 := r2.dropWhile Char.isDigit
    if ip = [] ∧ fp = [] then none
    else parseExp (digitsVal ip * 10 ^ fp.length + digitsVal fp) (10 ^ fp.length) r3
  | _ => if ip = [] then none else parseExp (digitsVal ip) 1 r1

/-- Parse an unsigned Python float literal: `inf`, `infinity`, `nan`
(case-insensitively) or a decimal numeral. -/
def parseMagnitude (l : List Char) : Option PyFloat :=
  let low := l.map Char.toLower
  if low = ['i', 'n', 'f'] ∨ low = ['i', 'n', 'f', 'i', 'n', 'i', 't', 'y'] then
    some PyFloat.inf
  else if low = ['n', 'a', 'n'] then
    some PyFloat.nan
  else
    parseDecimal l

/-- Negation on modelled float values (`nan` is sign-insensitive). -/
def pyNeg : PyFloat → PyFloat
  | .finite n d => .finite (-n) d
  | .inf => .neginf
  | .neginf => .inf
  | .nan => .nan

/-- Model of Python `float(s)` on an already-stripped character list: an
optional sign followed by a magnitude.  Returns `none` where `float()` raises
`ValueError`.  (Underscore digit separators and Unicode digits are not
modelled.) -/
def pyFloatOfChars : List Char → Option PyFloat
  | '+' :: r => parseMagnitude r
  | '-' :: r => (parseMagnitude r).map pyNeg
  | l => parseMagnitude l

/-- Subtraction with IEEE special-value propagation (finite overflow to
infinity is not modelled); finite values subtract by cross-multiplication. -/
def pySub : PyFloat → PyFloat → PyFloat
  | .nan, _ => .nan
  | _, .nan => .nan
  | .finite n₁ d₁, .finite n₂ d₂ => .finite (n₁ * d₂ - n₂ * d₁) (d₁ * d₂)
  | .finite _ _, .inf => .neginf
  | .finite _ _, .neginf => .inf
  | .inf, .inf => .nan
  | .inf, _ => .inf
  | .neginf, .neginf => .nan
  | .neginf, _ => .neginf

/-- Absolute value with IEEE special-value propagation. -/
def pyAbs : PyFloat → PyFloat
  | .finite n d => .finite |n| d
  | .nan => .nan
  | _ => .inf

/-- Strict comparison by cross-multiplication (denominators are positive for
all parsed values); any comparison involving `nan` is false. -/
def pyLt : PyFloat → PyFloat → Bool
  | .nan, _ => false
  | _, .nan => false
  | .finite n₁ d₁, .finite n₂ d₂ => decide (n₁ * d₂ < n₂ * d₁)
  | .finite _ _, .inf => true
  | .finite _ _, .neginf => false
  | .inf, _ => false
  | .neginf, .neginf => false
  | .neginf, _ => true

/-- Tolerance constant `1e-6` from `evaluator.py`. -/
def eps6 : PyFloat := .finite 1 1000000

/-- Model of `evaluate_output` from `evaluator.py`: try to parse both
stripped strings as floats; on success compare `abs(a - b) < 1e-6`; if either
parse fails (Python `ValueError`) fall back to equality of the stripped
strings. -/
def evaluate_output (actual_output expected_output : String) : Bool :=
  match pyFloatOfChars (pyStrip actual_output).toList,
        pyFloatOfChars (pyStrip expected_output).toList with
  | some a, some b => pyLt (pyAbs (pySub a b)) eps6
  | _, _ => pyStrip actual_output == pyStrip expected_output

/-! ## Sandboxed executor (`executor.py`)

`run_code` writes the code to a temp file, runs `python <tempfile>` with the
given stdin and a 10-second timeout, strips the captured stdout/stderr, and
on a `ModuleNotFoundError` in stderr extracts the module name, attempts one
`pip install <name>` (30-second timeout, outcome totalized to a boolean by
`install_package`), and either re-runs the child once and returns that
result, or returns an install-failure message.  `subprocess` behaviour is
abstracted as an environment: an outcome for each successive child-process
invocation, and an install outcome per package.  The model's result also
records the number of child runs used and the installs attempted, so the
claims about call counts can be stated. -/

/-- Child-process execution timeout in seconds (`timeout=10` in
`executor.py`'s `run_code`). -/
def execTimeoutSeconds : ℕ := 10

/-- Package-installation timeout in seconds (`timeout=30` in
`executor.py`'s `install_package`). -/
def installTimeoutSeconds : ℕ := 30

/-- Outcome of one `subprocess.run(['python', temp_file], ...)` call: normal
completion with captured streams, or one of the exception classes that
`run_code` handles. -/
inductive RunOutcome where
  | ok (stdout stderr : String)
  | timeoutExpired
  | fileNotFound
  | otherFailure (msg : String)
deriving DecidableEq, Repr

/-- Abstracted process environment for one `run_code` call: the outcome of
the n-th child-process invocation, and the (totalized) result of
`install_package` per package name. -/
structure ExecEnv where
  runs : ℕ → RunOutcome
  install : String → Bool

/-- Result of `run_code`, instrumented with the number of child-process
invocations used and the list of packages whose installation was attempted. -/
structure ExecResult where
  stdout : String
  stderr : String
  runsUsed : ℕ
  installsAttempted : List String
deriving DecidableEq, Repr

/-- Does `pat` occur as a prefix of `l`? -/
def startsWithChars : List Char → List Char → Bool
  | [], _ => true
  | _ :: _, [] => false
  | p :: ps, c :: cs => p = c && startsWithChars ps cs

/-- Does `pat` occur as a contiguous substring of `l` (Python `in`)? -/
def containsSub (pat : List Char) : List Char → Bool
  | [] => startsWithChars pat []
  | c :: cs => startsWithChars pat (c :: cs) || containsSub pat cs

/-- Quote characters accepted by the module-name pattern. -/
def isQuoteChar (c : Char) : Bool := c = '\'' || c = '"'

/-- Attempt to match the regex `No module named ['\"]([^'\"]+)['\"]` at the
head of `l`, returning the captured module name. -/
def matchNoModule (l : List Char) : Option String :=
  if startsWithChars "No module named ".toList l then
    match l.drop 16 with
    | q :: rest =>
      if isQuoteChar q then
        let name := rest.takeWhile fun c => !isQuoteChar c
        let rest2 := rest.dropWhile fun c => !isQuoteChar c
        if name ≠ [] ∧ rest2 ≠ [] then some name.asString else none
      else none
    | [] => none
  else none

/-- Model of `re.search(r"No module named ['\"]([^'\"]+)['\"]", stderr)`:
scan left to right for the first match and return its captured group. -/
def findModuleName : List Char → Option String
  | [] => none
  | c :: cs =>
    match matchNoModule (c :: cs) with
    | some n => some n
    | none => findModuleName cs

/-- Timeout message from `run_code`'s `TimeoutExpired` handler. -/
def timeoutMsg : String := "⏰ Code execution timed out (10 seconds limit)"

/-- Message from `run_code`'s `FileNotFoundError` handler. -/
def interpreterMissingMsg : String :=
  "❌ Python interpreter not found. Please ensure Python is installed and in PATH."

/-- Message from `run_code`'s generic exception handler. -/
def execFailedMsg (m : String) : String := "❌ Execution failed: " ++ m

/-- Map one child-process outcome through `run_code`'s stripping and
exception handlers to the returned `(stdout, stderr)` pair. -/
def mapOutcome : RunOutcome → String × String
  | .ok o e => (pyStrip o, pyStrip e)
  | .timeoutExpired => ("", timeoutMsg)
  | .fileNotFound => ("", interpreterMissingMsg)
  | .otherFailure m => ("", execFailedMsg m)

/-- Install-failure message from `run_code`. -/
def installFailedMsg (name : String) : String :=
  "Failed to install required package '" ++ name ++ "'"

/-- Model of `run_code` from `executor.py`.  The first child run's streams
are stripped; if the stripped stderr is non-empty and contains
`ModuleNotFoundError` with an extractable module name, one installation is
attempted: on success the child is re-run once and that second outcome
(through the same handlers) is the final result, on failure an
install-failure message is returned.  Exceptions of either child run map to
empty stdout and a descriptive stderr.  The model is a total function: no
path propagates a failure. -/
def run_code (env : ExecEnv) : ExecResult :=
  match env.runs 0 with
  | .ok o e =>
    let stdout := pyStrip o
    let stderr := pyStrip e
    if stderr ≠ "" ∧ containsSub "ModuleNotFoundError".toList stderr.toList then
      match findModuleName stderr.toList with
      | some name =>
        if env.install name then
          ⟨(mapOutcome (env.runs 1)).1, (mapOutcome (env.runs 1)).2, 2, [name]⟩
        else
          ⟨"", installFailedMsg name, 1, [name]⟩
      | none => ⟨stdout, stderr, 1, []⟩
    else ⟨stdout, stderr, 1, []⟩
  | .timeoutExpired => ⟨"", timeoutMsg, 1, []⟩
  | .fileNotFound => ⟨"", interpreterMissingMsg, 1, []⟩
  | .otherFailure m => ⟨"", execFailedMsg m, 1, []⟩

/-- Environment builder used in concrete instances: first- and second-run
outcomes plus an install oracle. -/
def mkEnv (r0 r1 : RunOutcome) (inst : String → Bool) : ExecEnv :=
  ⟨fun n => if n = 0 then r0 else r1, inst⟩

/-! ## Error normalizer (`main.py`, `normalize_error`)

`normalize_error` applies three `re.sub` substitutions — `line \d+` ↦
`line X`, `File "[^"]*"` ↦ `File "X"`, `tmp\w+\.py` ↦ `tmpX.py` — then
splits on newlines, keeps the stripped form of every line that strips
non-empty and does not start with two spaces and `File `, and joins the kept
lines with newlines.  Each substitution is modelled as a left-to-right scan
replacing non-overlapping matches, exactly as `re.sub` does; for these three
patterns the regex backtracking is deterministic (the character following a
maximal digit/word/non-quote run cannot restart the tail of the pattern), so
the scan below is faithful.  `\d` and `\w` are modelled on ASCII. -/

/-- Word character for the `\w` class (ASCII letters, digits, underscore). -/
def isWordC (c : Char) : Bool := c.isAlphanum || c = '_'

/-- Is the first character a digit? -/
def headDigit : List Char → Bool
  | [] => false
  | c :: _ => c.isDigit

/-- Is the first character a word character? -/
def headWord : List Char → Bool
  | [] => false
  | c :: _ => isWordC c

/-- Termination measure for the substitution scans: a dropWhile of a drop of
the scanned tail is at most as long as the tail. -/
theorem scanDec1 (p : Char → Bool) (k : ℕ) (r : List Char) :
    (List.dropWhile p (List.drop k r)).length < r.length + 1 := by
  have h1 := ((r.drop k).dropWhile_suffix p).length_le
  have h2 := r.length_drop k
  omega

/-- Termination measure variant with a trailing truncation. -/
theorem scanDec2 (p : Char → Bool) (k m : ℕ) (r : List Char) :
    (List.dropWhile p (List.drop k r)).length - m < r.length + 1 := by
  have h1 := scanDec1 p k r
  omega

/-- Does the regex `line \d+` match at the head of `l`? -/
def isLineHead (l : List Char) : Bool :=
  l.take 5 == ['l', 'i', 'n', 'e', ' '] && headDigit (l.drop 5)

/-- Model of `re.sub(r'line \d+', 'line X', s)`: scan left to right; at a
match emit `line X`, skip the digit run, and continue after it. -/
def lineSub : List Char → List Char
  | [] => []
  | c :: cs =>
    if isLineHead (c :: cs) then
      'l' :: 'i' :: 'n' :: 'e' :: ' ' :: 'X' :: lineSub (((c :: cs).drop 5).dropWhile Char.isDigit)
    else c :: lineSub cs
termination_by l => l.length
decreasing_by
  all_goals simp_wf
  all_goals first
    | omega
    | exact scanDec1 _ _ _
    | exact scanDec2 _ _ _ _

/-- Does the literal `File "` occur at the head of `l`? -/
def isFileHead (l : List Char) : Bool :=
  l.take 6 == ['F', 'i', 'l', 'e', ' ', '"']

/-- Does `l` contain a double-quote character? -/
def hasQuote (l : List Char) : Bool := l.any fun c => c = '"'

/-- The non-quote predicate for the `[^"]*` class. -/
def notQuote (c : Char) : Bool := !(c = '"')

/-- Model of `re.sub(r'File "[^"]*"', 'File "X"', s)`: at a `File "` head
with a later closing quote, emit `File "X"` and continue after that quote;
without a closing quote, no match starts here, so emit one character and
continue. -/
def fileSub : List Char → List Char
  | [] => []
  | c :: cs =>
    if isFileHead (c :: cs) then
      if hasQuote ((c :: cs).drop 6) then
        'F' :: 'i' :: 'l' :: 'e' :: ' ' :: '"' :: 'X' :: '"' ::
          fileSub (((c :: cs).drop 6).dropWhile notQuote).tail
      else c :: fileSub cs
    else c :: fileSub cs
termination_by l => l.length
decreasing_by
  all_goals simp_wf
  all_goals first
    | omega
    | exact scanDec1 _ _ _
    | exact scanDec2 _ _ _ _

/-- Does the regex `tmp\w+` match at the head of `l` (the `tmp` literal
followed by at least one word character)? -/
def isTmpHead (l : List Char) : Bool :=
  l.take 3 == ['t', 'm', 'p'] && headWord (l.drop 3)

/-- Model of `re.sub(r'tmp\w+\.py', 'tmpX.py', s)`: at a `tmp`+word-run head
the greedy `\w+` must take the whole run (the run's successor is not a word
character, and `.py` starts with a non-word character, so no shorter run can
match); if `.py` follows the run, emit `tmpX.py` and continue after it. -/
def tmpSub : List Char → List Char
  | [] => []
  | c :: cs =>
    if isTmpHead (c :: cs) then
      if startsWithChars ['.', 'p', 'y'] (((c :: cs).drop 3).dropWhile isWordC) then
        't' :: 'm' :: 'p' :: 'X' :: '.' :: 'p' :: 'y' ::
          tmpSub ((((c :: cs).drop 3).dropWhile isWordC).drop 3)
      else c :: tmpSub cs
    else c :: tmpSub cs
termination_by l => l.length
decreasing_by
  all_goals simp_wf
  all_goals first
    | omega
    | exact scanDec1 _ _ _
    | exact scanDec2 _ _ _ _

/-- Cons a character onto the first line of a split result. -/
def consHead (c : Char) : List (List Char) → List (List Char)
  | [] => [[c]]
  | h :: t => (c :: h) :: t

/-- Model of Python `s.split('\n')`. -/
def splitNl : List Char → List (List Char)
  | [] => [[]]
  | c :: cs => if c = '\n' then [] :: splitNl cs else consHead c (splitNl cs)

/-- Model of Python `'\n'.join(lines)`. -/
def joinNl : List (List Char) → List Char
  | [] => []
  | [l] => l
  | l :: ls => l ++ '\n' :: joinNl ls

/-- Does the line start with two spaces, `File` and a space (the
`line.startswith('  File ')` test)? -/
def startsFileSpace (l : List Char) : Bool :=
  l.take 7 == [' ', ' ', 'F', 'i', 'l', 'e', ' ']

/-- Keep a line iff it strips non-empty and does not start with `  File `. -/
def keepLine (l : List Char) : Bool :=
  !(stripChars l == []) && !startsFileSpace l

/-- The normalizer pipeline on character lists: the three substitutions,
then split / filter / strip / join. -/
def normalizeChars (l : List Char) : List Char :=
  joinNl (((splitNl (tmpSub (fileSub (lineSub l)))).filter keepLine).map stripChars)

/-- Model of `normalize_error` from `main.py` (the empty string is falsy in
Python, so it is returned unchanged). -/
def normalize_error (s : String) : String :=
  if s = "" then "" else (normalizeChars s.toList).asString

/-! Normal-form predicates for the three substitutions, used to prove the
normalizer idempotent: a string is a fixed point of a substitution exactly
when every position is "ok" for its pattern. -/

/-- Does every suffix of `l` pass the position check `pk`? -/
def allPos (pk : List Char → Bool) : List Char → Bool
  | [] => true
  | c :: cs => pk (c :: cs) && allPos pk cs

/-- No suffix of `l` starts a `line \d+` match. -/
def noLine (l : List Char) : Bool := allPos (fun s => !isLineHead s) l

/-- Position check for the `File "` pattern, relativized by `q`, which says
whether a double quote occurs somewhere to the right of `l`: a `File "` head
that can see a closing quote must already carry the replaced body `X"`. -/
def fileOkAtQ (q : Bool) (l : List Char) : Bool :=
  !isFileHead l || (!(hasQuote (l.drop 6) || q) || ((l.drop 6).take 2 == ['X', '"']))

/-- Every suffix of `l` passes the `File "` position check. -/
def allFileOkQ (q : Bool) (l : List Char) : Bool := allPos (fileOkAtQ q) l

/-- Position check for the `tmp\w+\.py` pattern: a match at this position
must already carry the replaced run `X`. -/
def tmpOkAt (l : List Char) : Bool :=
  !(isTmpHead l && startsWithChars ['.', 'p', 'y'] ((l.drop 3).dropWhile isWordC)) ||
    ((l.drop 3).takeWhile isWordC == ['X'])

/-- Every suffix of `l` passes the `tmp` position check. -/
def allTmpOk (l : List Char) : Bool := allPos tmpOkAt l

/-! ## Retry orchestrator (`main.py`, `solve_task`)

The loop is modelled as a function of an abstract environment: the
Generator's code, the Debugger's code as a function of the feedback and
attempt index, the executor as a function from code and stdin to a
`(stdout, stderr)` pair, and the elapsed wall-clock time observed at the top
of each attempt (time is modelled as an exact rational).  The model returns
the terminal outcome together with a log of the attempts that ran; each
attempt in the log corresponds to exactly one Generator-or-Debugger call, so
"no further oracle calls" is "the log ends here". -/

/-- Configuration constant `MAX_ATTEMPTS` from `main.py`. -/
def MAX_ATTEMPTS : ℕ := 50

/-- Configuration constant `MAX_EXECUTION_TIME` (seconds) from `main.py`. -/
def MAX_EXECUTION_TIME : ℚ := 300

/-- Configuration constant `MAX_DUPLICATE_ERRORS` from `main.py`. -/
def MAX_DUPLICATE_ERRORS : ℕ := 2

/-- Orchestrator configuration. -/
structure SolveCfg where
  maxAttempts : ℕ
  maxExecutionTime : ℚ
  maxDuplicateErrors : ℕ

/-- Abstract collaborators of one solving session. -/
structure SolveEnv where
  gen : String
  dbg : String → ℕ → String
  run : String → String → String × String
  elapsed : ℕ → ℚ

/-- The error-frequency table `error_history`, as a total count function
(absent keys have count 0, matching `dict.get(err, 0)`). -/
def bump (h : String → ℕ) (s : String) : String → ℕ :=
  fun t => if t = s then h s + 1 else h t

/-- Feedback line for an execution error
(`f"Test Case {idx}: Execution Error:\n{error}\n"`). -/
def errFeedback (idx : ℕ) (err : String) : String :=
  "Test Case " ++ toString idx ++ ": Execution Error:\n" ++ err ++ "\n"

/-- Feedback line for an output mismatch
(`f"Test Case {idx}: Expected '{expected}' but got '{output}'\n"`). -/
def mismatchFeedback (idx : ℕ) (expected got : String) : String :=
  "Test Case " ++ toString idx ++ ": Expected '" ++ expected ++ "' but got '" ++ got ++ "'\n"

/-- Result of one attempt's test-case loop. -/
structure TestsOut where
  allPassed : Bool
  feedback : String
  errs : List String
  hist : String → ℕ
  testsRun : ℕ
  errIdx : Option ℕ

/-- Model of the per-attempt test-case loop of `solve_task`: run each test
case in order; on non-empty stderr record the normalized signature, bump the
frequency table, append error feedback and stop; on an output mismatch
append mismatch feedback and stop; otherwise continue.  `testsRun` counts
the test cases actually executed and `errIdx` is the index of the test case
that produced an execution error, if any. -/
def runTests (run : String → String → String × String) (code : String)
    (hist : String → ℕ) : List (String × String) → ℕ → String → TestsOut
  | [], _, acc => ⟨true, acc, [], hist, 0, none⟩
  | (inp, expOut) :: rest, idx, acc =>
    let r := run code inp
    if r.2 ≠ "" then
      let ne := normalize_error r.2
      ⟨false, acc ++ errFeedback idx r.2, [ne], bump hist ne, 1, some idx⟩
    else if evaluate_output r.1 expOut then
      let o := runTests run code hist rest (idx + 1) acc
      ⟨o.allPassed, o.feedback, o.errs, o.hist, o.testsRun + 1, o.errIdx⟩
    else
      ⟨false, acc ++ mismatchFeedback idx expOut r.1, [], hist, 1, none⟩

/-- Log entry for one attempt: the oracle call it made (`code`, with the
feedback `fbUsed` passed to the Debugger), the feedback it built, the
recorded error signatures paired with their post-increment counts, and its
test outcomes. -/
structure AttemptLog where
  idx : ℕ
  code : String
  fbUsed : String
  fbBuilt : String
  errSigs : List (String × ℕ)
  testsRun : ℕ
  errIdx : Option ℕ
  passed : Bool
deriving DecidableEq, Repr

/-- Terminal outcome of a session. -/
inductive SolveOutcome where
  | success (code : String)
  | timedOut
  | stuck
  | exhausted
deriving DecidableEq, Repr

/-- Code obtained for an attempt: the Generator on attempt 1, the Debugger
with the current feedback on later attempts. -/
def attemptCode (env : SolveEnv) (attempt : ℕ) (fb : String) : String :=
  if attempt = 1 then env.gen else env.dbg fb attempt

/-- The test-case loop's result for one attempt. -/
def attemptOut (env : SolveEnv) (tcs : List (String × String))
    (attempt : ℕ) (fb : String) (hist : String → ℕ) : TestsOut :=
  runTests env.run (attemptCode env attempt fb) hist tcs 1 ""

/-- The log entry produced by one attempt. -/
def attemptLogOf (env : SolveEnv) (tcs : List (String × String))
    (attempt : ℕ) (fb : String) (hist : String → ℕ) : AttemptLog :=
  ⟨attempt, attemptCode env attempt fb, fb, (attemptOut env tcs attempt fb hist).feedback,
    (attemptOut env tcs attempt fb hist).errs.map
      (fun e => (e, (attemptOut env tcs attempt fb hist).hist e)),
    (attemptOut env tcs attempt fb hist).testsRun,
    (attemptOut env tcs attempt fb hist).errIdx,
    (attemptOut env tcs attempt fb hist).allPassed⟩

/-- The duplicate-error stop test of `solve_task`: the attempt recorded some
error and a recorded signature's occurrence count has reached the budget. -/
def stuckTrigger (cfg : SolveCfg) (r : TestsOut) : Bool :=
  !r.errs.isEmpty &&
    !(r.errs.filter fun e => decide (cfg.maxDuplicateErrors ≤ r.hist e)).isEmpty

/-- Model of the attempt loop of `solve_task`: at the top of each attempt
check the wall-clock budget; call the Generator (attempt 1) or the Debugger
(with the previous attempt's feedback); run the test cases; stop as Stuck if
a recorded signature's count has reached the duplicate budget; stop as
Success if all test cases passed; otherwise recurse with this attempt's
feedback and table.  `fuel` counts the remaining iterations of
`range(1, MAX_ATTEMPTS + 1)`. -/
def solveLoop (env : SolveEnv) (cfg : SolveCfg) (tcs : List (String × String)) :
    ℕ → ℕ → String → (String → ℕ) → SolveOutcome × List AttemptLog
  | 0, _, _, _ => (.exhausted, [])
  | fuel + 1, attempt, fb, hist =>
    if cfg.maxExecutionTime < env.elapsed attempt then (.timedOut, [])
    else if stuckTrigger cfg (attemptOut env tcs attempt fb hist) then
      (.stuck, [attemptLogOf env tcs attempt fb hist])
    else if (attemptOut env tcs attempt fb hist).allPassed then
      (.success (attemptCode env attempt fb), [attemptLogOf env tcs attempt fb hist])
    else
      ((solveLoop env cfg tcs fuel (attempt + 1) (attemptOut env tcs attempt fb hist).feedback
          (attemptOut env tcs attempt fb hist).hist).1,
        attemptLogOf env tcs attempt fb hist ::
          (solveLoop env cfg tcs fuel (attempt + 1) (attemptOut env tcs attempt fb hist).feedback
            (attemptOut env tcs attempt fb hist).hist).2)

/-- Model of `solve_task`: run the loop from attempt 1 with empty feedback
and an empty error-frequency table. -/
def solve_task (env : SolveEnv) (cfg : SolveCfg) (tcs : List (String × String)) :
    SolveOutcome × List AttemptLog :=
  solveLoop env cfg tcs cfg.maxAttempts 1 "" fun _ => 0

/-- The orchestrator state (feedback, error-frequency table) after `n`
completed attempts of a session — the loop's state transition iterated from
the initial state; `stateAt n` is the state entering attempt `n + 1`. -/
def stateAt (env : SolveEnv) (tcs : List (String × String)) :
    ℕ → String × (String → ℕ)
  | 0 => ("", fun _ => 0)
  | n + 1 =>
    ((attemptOut env tcs (n + 1) (stateAt env tcs n).1 (stateAt env tcs n).2).feedback,
      (attemptOut env tcs (n + 1) (stateAt env tcs n).1 (stateAt env tcs n).2).hist)

/-! ### Claims C1 and C9 -/

/-- C1: for every pair of strings, if both strings (after stripping) parse as
floats then `evaluate_output` returns true iff `|actual - expected| < 1e-6`
(absolute tolerance, with IEEE special-value arithmetic); if either fails to
parse, `evaluate_output` returns true iff the two stripped strings are
exactly equal. -/
theorem evaluate_output_spec (a e : String) :
    (∀ x y, pyFloatOfChars (pyStrip a).toList = some x →
      pyFloatOfChars (pyStrip e).toList = some y →
      (evaluate_output a e = true ↔ pyLt (pyAbs (pySub x y)) eps6 = true)) ∧
    ((pyFloatOfChars (pyStrip a).toList = none ∨
      pyFloatOfChars (pyStrip e).toList = none) →
      (evaluate_output a e = true ↔ pyStrip a = pyStrip e)) := by
  constructor
  · intro x y hx hy
    unfold evaluate_output
    rw [hx, hy]
  · intro h
    unfold evaluate_output
    rcases h with h | h
    · rw [h]
      cases pyFloatOfChars (pyStrip e).toList <;> simp [beq_iff_eq]
    · rw [h]
      cases pyFloatOfChars (pyStrip a).toList <;> simp [beq_iff_eq]

/-- Witness for C1: on the spec's examples, `evaluate_output "3.0000001"
"3.0"` is true via the numeric branch and `evaluate_output " hi " "hi"` is
true via the string-equality branch. -/
theorem evaluate_output_spec_witness :
    evaluate_output "3.0000001" "3.0" = true ∧ evaluate_output " hi " "hi" = true := by
  constructor
  · have h := (evaluate_output_spec "3.0000001" "3.0").1
      (PyFloat.finite 30000001 10000000) (PyFloat.finite 30 10) (by decide) (by decide)
    rw [h]
    decide
  · have h := (evaluate_output_spec " hi " "hi").2 (Or.inl (by decide))
    rw [h]
    decide

/-- C9: `evaluate_output` is not reflexive on strings that parse as
non-finite floats: identical `"nan"` (and `"inf"`) inputs compare unequal,
because the numeric branch computes `abs(nan) < 1e-6` (false) instead of
falling back to string equality. -/
theorem evaluate_output_not_reflexive :
    evaluate_output "nan" "nan" = false ∧ evaluate_output "inf" "inf" = false := by
  decide

/-! ### Executor claims C3, C6, C7, C10 -/

/-- The generic-exception message is never empty. -/
theorem execFailedMsg_ne (m : String) : execFailedMsg m ≠ "" := by
  intro h
  have hlen := congrArg String.length h
  rw [execFailedMsg, String.length_append] at hlen
  simp at hlen
  exact absurd hlen.1 (by decide)

/-- Reduction of `run_code` when the first run completes and its stripped
stderr matches the missing-module pattern with an extractable name. -/
theorem run_code_pattern (env : ExecEnv) (o e name : String)
    (h0 : env.runs 0 = .ok o e)
    (hne : pyStrip e ≠ "")
    (hmnf : containsSub "ModuleNotFoundError".toList (pyStrip e).toList = true)
    (hname : findModuleName (pyStrip e).toList = some name) :
    run_code env =
      if env.install name then
        ⟨(mapOutcome (env.runs 1)).1, (mapOutcome (env.runs 1)).2, 2, [name]⟩
      else ⟨"", installFailedMsg name, 1, [name]⟩ := by
  unfold run_code
  rw [h0]
  dsimp only
  rw [if_pos ⟨hne, hmnf⟩, hname]

/-- Concrete environment for the install-path claims: a first run failing
with a missing `numpy`, a succeeding installer, a clean second run. -/
def envC3 : ExecEnv :=
  mkEnv (.ok "" "ModuleNotFoundError: No module named 'numpy'") (.ok "42" "") fun _ => true

/-- C3 counterexample: on an input matching the missing-dependency pattern
the executor attempts exactly one installation, but that installation's
timeout (30 s) is NOT shorter than the child-process execution timeout
(10 s), contradicting the claim. -/
theorem install_timeout_not_shorter :
    (run_code envC3).installsAttempted.length = 1 ∧
    ¬(installTimeoutSeconds < execTimeoutSeconds) := by
  decide

/-- C3 amended: when stderr matches the missing-dependency pattern the
executor attempts exactly one automatic installation of the extracted
dependency, bounded by its own 30-second timeout, which is longer than the
10-second child-process execution timeout. -/
theorem install_attempted_exactly_once (env : ExecEnv) (o e name : String)
    (h0 : env.runs 0 = .ok o e)
    (hne : pyStrip e ≠ "")
    (hmnf : containsSub "ModuleNotFoundError".toList (pyStrip e).toList = true)
    (hname : findModuleName (pyStrip e).toList = some name) :
    (run_code env).installsAttempted = [name] ∧
    installTimeoutSeconds = 30 ∧ execTimeoutSeconds = 10 := by
  refine ⟨?_, rfl, rfl⟩
  rw [run_code_pattern env o e name h0 hne hmnf hname]
  by_cases hi : env.install name = true
  · rw [if_pos hi]
  · rw [if_neg hi]

/-- Witness for the amended C3 at `envC3`. -/
theorem install_attempted_exactly_once_witness :
    (run_code envC3).installsAttempted = ["numpy"] ∧
    installTimeoutSeconds = 30 ∧ execTimeoutSeconds = 10 :=
  install_attempted_exactly_once envC3 "" "ModuleNotFoundError: No module named 'numpy'"
    "numpy" rfl (by decide) (by decide) (by decide)

/-- C6: in the recovery path, a successful install leads to exactly one
re-run whose (stripped) result — or exception conversion — is returned as
final with no second install; a failed install returns empty stdout and the
message naming the dependency. -/
theorem run_code_retry_semantics (env : ExecEnv) (o e name : String)
    (h0 : env.runs 0 = .ok o e)
    (hne : pyStrip e ≠ "")
    (hmnf : containsSub "ModuleNotFoundError".toList (pyStrip e).toList = true)
    (hname : findModuleName (pyStrip e).toList = some name) :
    (env.install name = true →
      run_code env = ⟨(mapOutcome (env.runs 1)).1, (mapOutcome (env.runs 1)).2, 2, [name]⟩) ∧
    (env.install name = false →
      run_code env = ⟨"", installFailedMsg name, 1, [name]⟩) := by
  rw [run_code_pattern env o e name h0 hne hmnf hname]
  constructor
  · intro hi; rw [if_pos hi]
  · intro hi; rw [if_neg (by simp [hi])]

/-- Concrete environment with a succeeding installer. -/
def envC6a : ExecEnv :=
  mkEnv (.ok "" "ModuleNotFoundError: No module named 'pandas'") (.ok " hi\n" "") fun _ => true

/-- Concrete environment with a failing installer. -/
def envC6b : ExecEnv :=
  mkEnv (.ok "" "ModuleNotFoundError: No module named 'pandas'") (.ok " hi\n" "") fun _ => false

/-- Witness for C6 on both install outcomes. -/
theorem run_code_retry_semantics_witness :
    run_code envC6a = ⟨"hi", "", 2, ["pandas"]⟩ ∧
    run_code envC6b = ⟨"", installFailedMsg "pandas", 1, ["pandas"]⟩ := by
  constructor
  · rw [(run_code_retry_semantics envC6a "" "ModuleNotFoundError: No module named 'pandas'"
      "pandas" rfl (by decide) (by decide) (by decide)).1 rfl]
    decide
  · rw [(run_code_retry_semantics envC6b "" "ModuleNotFoundError: No module named 'pandas'"
      "pandas" rfl (by decide) (by decide) (by decide)).2 rfl]

/-- C7: the executor is total (the model is a total function by
construction) and converts every child-process failure into an
empty-stdout, descriptive-stderr result instead of propagating it: a
timeout yields the timeout message, a missing interpreter its message, any
other failure the generic failure message — including a timeout of the
post-install second run. -/
theorem run_code_never_raises (env : ExecEnv) :
    (env.runs 0 = .timeoutExpired →
      run_code env = ⟨"", timeoutMsg, 1, []⟩ ∧ timeoutMsg ≠ "") ∧
    (env.runs 0 = .fileNotFound →
      run_code env = ⟨"", interpreterMissingMsg, 1, []⟩ ∧ interpreterMissingMsg ≠ "") ∧
    (∀ m, env.runs 0 = .otherFailure m →
      run_code env = ⟨"", execFailedMsg m, 1, []⟩ ∧ execFailedMsg m ≠ "") ∧
    (∀ o e name, env.runs 0 = .ok o e → pyStrip e ≠ "" →
      containsSub "ModuleNotFoundError".toList (pyStrip e).toList = true →
      findModuleName (pyStrip e).toList = some name → env.install name = true →
      env.runs 1 = .timeoutExpired →
      run_code env = ⟨"", timeoutMsg, 2, [name]⟩ ∧ timeoutMsg ≠ "") := by
  refine ⟨?_, ?_, ?_, ?_⟩
  · intro h; rw [run_code, h]; exact ⟨rfl, by decide⟩
  · intro h; rw [run_code, h]; exact ⟨rfl, by decide⟩
  · intro m h; rw [run_code, h]; exact ⟨rfl, execFailedMsg_ne m⟩
  · intro o e name h0 hne hmnf hname hi h1
    rw [run_code_pattern env o e name h0 hne hmnf hname, if_pos hi, h1]
    exact ⟨rfl, by decide⟩

/-- Concrete timing-out environment. -/
def envC7 : ExecEnv := mkEnv .timeoutExpired .timeoutExpired fun _ => false

/-- Witness for C7 at a timing-out child process. -/
theorem run_code_never_raises_witness :
    run_code envC7 = ⟨"", timeoutMsg, 1, []⟩ ∧ timeoutMsg ≠ "" :=
  (run_code_never_raises envC7).1 rfl

/-- A string all of whose characters are whitespace strips to empty. -/
theorem pyStrip_all_space (e : String) (h : ∀ c ∈ e.toList, isSpaceC c = true) :
    pyStrip e = "" := by
  unfold pyStrip stripChars
  rw [List.dropWhile_eq_nil_iff.mpr h]
  rfl

/-- C10: on non-exception return paths the executor returns the stripped
captured streams; hence results are invariant under surrounding whitespace
in the child's stdout, and a whitespace-only stderr comes back as the empty
string, which the orchestrator's test loop classifies as no execution error
(no signature recorded, no error index). -/
theorem run_code_strips_streams (env : ExecEnv) :
    (∀ o e, env.runs 0 = .ok o e →
      (pyStrip e = "" ∨
        containsSub "ModuleNotFoundError".toList (pyStrip e).toList = false) →
      run_code env = ⟨pyStrip o, pyStrip e, 1, []⟩) ∧
    (∀ o o' e r1 inst, pyStrip o = pyStrip o' →
      run_code (mkEnv (.ok o e) r1 inst) = run_code (mkEnv (.ok o' e) r1 inst)) ∧
    (∀ o e, env.runs 0 = .ok o e → (∀ c ∈ e.toList, isSpaceC c = true) →
      (run_code env).stderr = "" ∧
      (∀ code hist inp expOut idx acc,
        (runTests (fun _ _ => ((run_code env).stdout, (run_code env).stderr))
          code hist [(inp, expOut)] idx acc).errs = [] ∧
        (runTests (fun _ _ => ((run_code env).stdout, (run_code env).stderr))
          code hist [(inp, expOut)] idx acc).errIdx = none)) := by
  have base : ∀ o e, env.runs 0 = .ok o e →
      (pyStrip e = "" ∨
        containsSub "ModuleNotFoundError".toList (pyStrip e).toList = false) →
      run_code env = ⟨pyStrip o, pyStrip e, 1, []⟩ := by
    intro o e h0 hc
    rw [run_code, h0]
    dsimp only
    rw [if_neg]
    rcases hc with hc | hc
    · exact fun hx => hx.1 hc
    · exact fun hx => by rw [hc] at hx; exact absurd hx.2 (by simp)
  refine ⟨base, ?_, ?_⟩
  · intro o o' e r1 inst h
    unfold run_code mkEnv
    simp only [reduceIte]
    rw [h]
    norm_num
  · intro o e h0 hsp
    have hstrip := pyStrip_all_space e hsp
    have hres := base o e h0 (Or.inl hstrip)
    rw [hstrip] at hres
    rw [hres]
    refine ⟨rfl, ?_⟩
    intro code hist inp expOut idx acc
    rw [runTests]
    dsimp only
    rw [if_neg (by simp)]
    by_cases hev : evaluate_output (pyStrip o) expOut = true
    · rw [if_pos hev]
      exact ⟨rfl, rfl⟩
    · rw [if_neg hev]
      exact ⟨rfl, rfl⟩

/-- Concrete environment whose stderr is whitespace-only. -/
def envC10 : ExecEnv := mkEnv (.ok "ans\n" " \n\t") .timeoutExpired fun _ => false

/-- Witness for C10: whitespace-only stderr strips to empty and the test
loop records no error for such a run. -/
theorem run_code_strips_streams_witness :
    run_code envC10 = ⟨pyStrip "ans\n", pyStrip " \n\t", 1, []⟩ ∧
    (run_code envC10).stderr = "" ∧
    (runTests (fun _ _ => ((run_code envC10).stdout, (run_code envC10).stderr))
      "c" (fun _ => 0) [("i", "ans")] 1 "").errs = [] := by
  refine ⟨(run_code_strips_streams envC10).1 "ans\n" " \n\t" rfl (Or.inl (by decide)), ?_, ?_⟩
  · exact ((run_code_strips_streams envC10).2.2 "ans\n" " \n\t" rfl (by decide)).1
  · exact (((run_code_strips_streams envC10).2.2 "ans\n" " \n\t" rfl (by decide)).2
      "c" (fun _ => 0) "i" "ans" 1 "").1

/-! ### Orchestrator claims C2, C4, C5 -/

/-- The duplicate-error stop test holds iff some recorded signature of the
attempt has reached the duplicate budget in the updated frequency table. -/
theorem stuckTrigger_iff (cfg : SolveCfg) (r : TestsOut) :
    stuckTrigger cfg r = true ↔ ∃ e ∈ r.errs, cfg.maxDuplicateErrors ≤ r.hist e := by
  unfold stuckTrigger
  rw [Bool.and_eq_true, Bool.not_eq_true', Bool.not_eq_true', List.isEmpty_eq_false,
    List.isEmpty_eq_false]
  constructor
  · rintro ⟨-, h2⟩
    rcases List.exists_mem_of_ne_nil _ h2 with ⟨e, he⟩
    rcases List.mem_filter.mp he with ⟨hmem, hle⟩
    exact ⟨e, hmem, of_decide_eq_true hle⟩
  · rintro ⟨e, hmem, hle⟩
    refine ⟨List.ne_nil_of_mem hmem, List.ne_nil_of_mem (List.mem_filter.mpr ⟨hmem, ?_⟩)⟩
    exact decide_eq_true hle

/-- A log entry's recorded signatures trigger the claim's condition iff the
loop's stop test fires for the attempt that produced it. -/
theorem attemptLog_trigger (env : SolveEnv) (tcs : List (String × String))
    (attempt : ℕ) (fb : String) (hist : String → ℕ) (cfg : SolveCfg) :
    (∃ p ∈ (attemptLogOf env tcs attempt fb hist).errSigs, cfg.maxDuplicateErrors ≤ p.2) ↔
    stuckTrigger cfg (attemptOut env tcs attempt fb hist) = true := by
  rw [stuckTrigger_iff]
  unfold attemptLogOf
  constructor
  · rintro ⟨p, hp, hle⟩
    rcases List.mem_map.mp hp with ⟨e, he, rfl⟩
    exact ⟨e, he, hle⟩
  · rintro ⟨e, he, hle⟩
    exact ⟨(e, (attemptOut env tcs attempt fb hist).hist e),
      List.mem_map_of_mem _ he, hle⟩

/-- Popping the head of a non-empty-tailed list keeps the last element. -/
theorem getLast?_cons_ne (a : AttemptLog) (l : List AttemptLog) (h : l ≠ []) :
    (a :: l).getLast? = l.getLast? := by
  cases l with
  | nil => exact absurd rfl h
  | cons b t => exact List.getLast?_cons_cons

/-- Loop-level form of C2: any logged attempt whose recorded signature has
reached the duplicate budget is the final logged attempt, and the loop's
outcome is Stuck. -/
theorem solveLoop_stuck_last (env : SolveEnv) (cfg : SolveCfg)
    (tcs : List (String × String)) :
    ∀ (fuel attempt : ℕ) (fb : String) (hist : String → ℕ) (log : AttemptLog),
      log ∈ (solveLoop env cfg tcs fuel attempt fb hist).2 →
      (∃ p ∈ log.errSigs, cfg.maxDuplicateErrors ≤ p.2) →
      (solveLoop env cfg tcs fuel attempt fb hist).1 = .stuck ∧
      (solveLoop env cfg tcs fuel attempt fb hist).2.getLast? = some log := by
  intro fuel
  induction fuel with
  | zero =>
    intro attempt fb hist log hmem _
    rw [solveLoop] at hmem
    exact absurd hmem (by simp)
  | succ n ih =>
    intro attempt fb hist log hmem htrig
    rw [solveLoop] at hmem ⊢
    by_cases ht : cfg.maxExecutionTime < env.elapsed attempt
    · rw [if_pos ht] at hmem
      exact absurd hmem (by simp)
    · rw [if_neg ht] at hmem ⊢
      by_cases hs : stuckTrigger cfg (attemptOut env tcs attempt fb hist) = true
      · rw [if_pos hs] at hmem ⊢
        rw [List.mem_singleton] at hmem
        subst hmem
        exact ⟨rfl, rfl⟩
      · rw [if_neg hs] at hmem ⊢
        have hnotlog : log ≠ attemptLogOf env tcs attempt fb hist := by
          intro he
          rw [he] at htrig
          exact hs ((attemptLog_trigger env tcs attempt fb hist cfg).mp htrig)
        by_cases hp : (attemptOut env tcs attempt fb hist).allPassed = true
        · rw [if_pos hp] at hmem
          rw [List.mem_singleton] at hmem
          exact absurd hmem hnotlog
        · rw [if_neg hp] at hmem ⊢
          rcases List.mem_cons.mp hmem with he | hm
          · exact absurd he hnotlog
          · have hrec := ih (attempt + 1) (attemptOut env tcs attempt fb hist).feedback
              (attemptOut env tcs attempt fb hist).hist log hm htrig
            exact ⟨hrec.1, by
              rw [getLast?_cons_ne _ _ (List.ne_nil_of_mem hm)]
              exact hrec.2⟩

/-- C2: in any session, if a logged attempt's recorded normalized error
signature has reached `max_duplicate_errors` occurrences in the frequency
table, the session's outcome is Stuck and that attempt is the last log entry
— no further Generator or Debugger call occurs (each log entry corresponds
to exactly one oracle call). -/
theorem stuck_stops_session (env : SolveEnv) (cfg : SolveCfg)
    (tcs : List (String × String)) (log : AttemptLog)
    (hmem : log ∈ (solve_task env cfg tcs).2)
    (htrig : ∃ p ∈ log.errSigs, cfg.maxDuplicateErrors ≤ p.2) :
    (solve_task env cfg tcs).1 = .stuck ∧
    (solve_task env cfg tcs).2.getLast? = some log := by
  unfold solve_task at hmem ⊢
  exact solveLoop_stuck_last env cfg tcs cfg.maxAttempts 1 "" (fun _ => 0) log hmem htrig

/-- Evaluation of the normalizer on the witness error text. -/
theorem normBoom : normalize_error "boom" = "boom" := by
  simp [normalize_error, normalizeChars, lineSub, fileSub, tmpSub, isLineHead, isFileHead,
    isTmpHead, headDigit, headWord, splitNl, joinNl, consHead, keepLine, stripChars,
    startsFileSpace, hasQuote, isWordC, notQuote, isSpaceC, startsWithChars, List.rdropWhile]
  rfl

/-- Witness session: the Debugger always returns code whose execution fails
with the same error, with a duplicate budget of 2. -/
def envW2 : SolveEnv := ⟨"c0", fun _ _ => "c0", fun _ _ => ("", "boom"), fun _ => 0⟩

/-- Witness configuration: 5 attempts, 300 s budget, duplicate budget 2. -/
def cfgW2 : SolveCfg := ⟨5, 300, 2⟩

/-- The second attempt's log in the witness session: its signature has
reached 2 occurrences. -/
def logW2 : AttemptLog := ⟨2, "c0", errFeedback 1 "boom", errFeedback 1 "boom",
  [("boom", 2)], 1, some 1, false⟩

/-- The witness session's full log: two attempts with the same signature. -/
theorem traceW2 : (solve_task envW2 cfgW2 [("i", "o")]).2 =
    [⟨1, "c0", "", errFeedback 1 "boom", [("boom", 1)], 1, some 1, false⟩, logW2] := by
  norm_num [solve_task, solveLoop, attemptOut, attemptCode, attemptLogOf, runTests,
    stuckTrigger, bump, normBoom, envW2, cfgW2, logW2,
    eq_false (by decide : ¬(("boom" : String) = "")), List.filter]

/-- Witness for C2: the repeated-signature attempt is final and the session
ends Stuck. -/
theorem stuck_stops_session_witness :
    (solve_task envW2 cfgW2 [("i", "o")]).1 = .stuck ∧
    (solve_task envW2 cfgW2 [("i", "o")]).2.getLast? = some logW2 :=
  stuck_stops_session envW2 cfgW2 [("i", "o")] logW2
    (by rw [traceW2]; simp) (by decide)

/-- The feedback built by the test loop does not depend on the incoming
error-frequency table. -/
theorem runTests_feedback_hist_indep (run : String → String → String × String)
    (code : String) :
    ∀ (l : List (String × String)) (h₁ h₂ : String → ℕ) (idx : ℕ) (acc : String),
      (runTests run code h₁ l idx acc).feedback = (runTests run code h₂ l idx acc).feedback := by
  intro l
  induction l with
  | nil => intro h₁ h₂ idx acc; rfl
  | cons t rest ih =>
    intro h₁ h₂ idx acc
    obtain ⟨inp, expOut⟩ := t
    rw [runTests, runTests]
    by_cases he : (run code inp).2 ≠ ""
    · rw [if_pos he, if_pos he]
    · rw [if_neg he, if_neg he]
      by_cases hv : evaluate_output (run code inp).1 expOut = true
      · rw [if_pos hv, if_pos hv]
        exact ih h₁ h₂ (idx + 1) acc
      · rw [if_neg hv, if_neg hv]

/-- Loop-level form of C4: the head attempt is called with the loop's
incoming feedback, each later attempt is called with exactly the feedback
built by the attempt logged just before it, and every attempt's built
feedback is a function of that attempt's own test outcomes alone (it equals
the test loop's feedback from the empty accumulator and a fresh table). -/
theorem solveLoop_feedback_chain (env : SolveEnv) (cfg : SolveCfg)
    (tcs : List (String × String)) :
    ∀ (fuel attempt : ℕ) (fb : String) (hist : String → ℕ),
      (∀ (la : AttemptLog), (solveLoop env cfg tcs fuel attempt fb hist).2.head? = some la →
        la.fbUsed = fb) ∧
      (∀ (i : ℕ) (la lb : AttemptLog),
        (solveLoop env cfg tcs fuel attempt fb hist).2[i]? = some la →
        (solveLoop env cfg tcs fuel attempt fb hist).2[i + 1]? = some lb →
        lb.fbUsed = la.fbBuilt) ∧
      (∀ (i : ℕ) (la : AttemptLog), (solveLoop env cfg tcs fuel attempt fb hist).2[i]? = some la →
        la.fbBuilt = (runTests env.run la.code (fun _ => 0) tcs 1 "").feedback) := by
  intro fuel
  induction fuel with
  | zero =>
    intro attempt fb hist
    refine ⟨?_, ?_, ?_⟩ <;> intro _ <;> simp [solveLoop]
  | succ n ih =>
    intro attempt fb hist
    rw [solveLoop]
    by_cases ht : cfg.maxExecutionTime < env.elapsed attempt
    · rw [if_pos ht]
      refine ⟨?_, ?_, ?_⟩ <;> intro _ <;> simp
    · rw [if_neg ht]
      have hbuilt : (attemptLogOf env tcs attempt fb hist).fbBuilt
          = (runTests env.run (attemptLogOf env tcs attempt fb hist).code
              (fun _ => 0) tcs 1 "").feedback := by
        unfold attemptLogOf attemptOut
        exact runTests_feedback_hist_indep env.run _ tcs hist (fun _ => 0) 1 ""
      by_cases hs : stuckTrigger cfg (attemptOut env tcs attempt fb hist) = true
      · rw [if_pos hs]
        refine ⟨?_, ?_, ?_⟩
        · intro la hla
          simp at hla
          subst hla
          rfl
        · intro i la lb hla hlb
          rcases i with - | j
          · simp at hlb
          · simp at hla
        · intro i la hla
          rcases i with - | j
          · simp at hla
            subst hla
            exact hbuilt
          · simp at hla
      · rw [if_neg hs]
        by_cases hp : (attemptOut env tcs attempt fb hist).allPassed = true
        · rw [if_pos hp]
          refine ⟨?_, ?_, ?_⟩
          · intro la hla
            simp at hla
            subst hla
            rfl
          · intro i la lb hla hlb
            rcases i with - | j
            · simp at hlb
            · simp at hla
          · intro i la hla
            rcases i with - | j
            · simp at hla
              subst hla
              exact hbuilt
            · simp at hla
        · rw [if_neg hp]
          have hrec := ih (attempt + 1) (attemptOut env tcs attempt fb hist).feedback
            (attemptOut env tcs attempt fb hist).hist
          refine ⟨?_, ?_, ?_⟩
          · intro la hla
            simp at hla
            subst hla
            rfl
          · intro i la lb hla hlb
            rcases i with - | j
            · simp at hla
              rw [List.getElem?_cons_succ] at hlb
              have hlb' : (solveLoop env cfg tcs n (attempt + 1)
                  (attemptOut env tcs attempt fb hist).feedback
                  (attemptOut env tcs attempt fb hist).hist).2.head? = some lb := by
                rw [List.head?_eq_getElem?]
                exact hlb
              rw [hrec.1 lb hlb', ← hla]
              rfl
            · simp only [List.getElem?_cons_succ] at hla hlb
              exact hrec.2.1 j la lb hla hlb
          · intro i la hla
            rcases i with - | j
            · simp at hla
              subst hla
              exact hbuilt
            · simp only [List.getElem?_cons_succ] at hla
              exact hrec.2.2 j la hla

/-- C4: across a session, attempt 1 is called with empty feedback, the
feedback passed to the Debugger for attempt `n + 1` is exactly the feedback
built by attempt `n`, and the feedback built by an attempt is a function of
that attempt's own test outcomes alone (the test loop run from the empty
accumulator and a fresh frequency table) — feedback never accumulates
across attempts. -/
theorem feedback_not_cumulative (env : SolveEnv) (cfg : SolveCfg)
    (tcs : List (String × String)) :
    (∀ (la : AttemptLog), (solve_task env cfg tcs).2.head? = some la → la.fbUsed = "") ∧
    (∀ (i : ℕ) (la lb : AttemptLog), (solve_task env cfg tcs).2[i]? = some la →
      (solve_task env cfg tcs).2[i + 1]? = some lb → lb.fbUsed = la.fbBuilt) ∧
    (∀ (i : ℕ) (la : AttemptLog), (solve_task env cfg tcs).2[i]? = some la →
      la.fbBuilt = (runTests env.run la.code (fun _ => 0) tcs 1 "").feedback) := by
  unfold solve_task
  exact solveLoop_feedback_chain env cfg tcs cfg.maxAttempts 1 "" fun _ => 0

/-- Witness session for C4: a Generator and Debugger whose code echoes
itself, so every attempt fails by output mismatch. -/
def envW4 : SolveEnv := ⟨"bad", fun _ _ => "bad2", fun c _ => (c, ""), fun _ => 0⟩

/-- Witness configuration for C4: two attempts. -/
def cfgW4 : SolveCfg := ⟨2, 300, 2⟩

/-- The witness session's first attempt log. -/
def logW4a : AttemptLog :=
  ⟨1, "bad", "", mismatchFeedback 1 "x" "bad", [], 1, none, false⟩

/-- The witness session's second attempt log. -/
def logW4b : AttemptLog :=
  ⟨2, "bad2", mismatchFeedback 1 "x" "bad", mismatchFeedback 1 "x" "bad2", [], 1, none, false⟩

/-- Witness for C4: in the concrete session the Debugger call of attempt 2
receives exactly attempt 1's built feedback, and attempt 1 ran on empty
feedback. -/
theorem feedback_not_cumulative_witness :
    logW4b.fbUsed = logW4a.fbBuilt ∧ logW4a.fbUsed = "" := by
  constructor
  · exact (feedback_not_cumulative envW4 cfgW4 [("i", "x")]).2.1 0 logW4a logW4b
      (by decide) (by decide)
  · exact (feedback_not_cumulative envW4 cfgW4 [("i", "x")]).1 logW4a (by decide)

/-- The incoming frequency table is a pointwise lower bound of the test
loop's outgoing table: counts are never decremented or removed. -/
theorem runTests_hist_mono (run : String → String → String × String) (code : String) :
    ∀ (l : List (String × String)) (hist : String → ℕ) (idx : ℕ) (acc : String) (s : String),
      hist s ≤ (runTests run code hist l idx acc).hist s := by
  intro l
  induction l with
  | nil => intro hist idx acc s; exact le_refl _
  | cons t rest ih =>
    intro hist idx acc s
    obtain ⟨inp, expOut⟩ := t
    rw [runTests]
    by_cases he : (run code inp).2 ≠ ""
    · rw [if_pos he]
      unfold bump
      dsimp only
      by_cases hx : s = normalize_error (run code inp).2
      · rw [if_pos hx]
        rw [hx]
        omega
      · rw [if_neg hx]
    · rw [if_neg he]
      by_cases hv : evaluate_output (run code inp).1 expOut = true
      · rw [if_pos hv]
        exact ih hist (idx + 1) acc s
      · rw [if_neg hv]

/-- The test loop increments each signature's count at most once. -/
theorem runTests_hist_le (run : String → String → String × String) (code : String) :
    ∀ (l : List (String × String)) (hist : String → ℕ) (idx : ℕ) (acc : String) (s : String),
      (runTests run code hist l idx acc).hist s ≤ hist s + 1 := by
  intro l
  induction l with
  | nil => intro hist idx acc s; exact Nat.le_succ _
  | cons t rest ih =>
    intro hist idx acc s
    obtain ⟨inp, expOut⟩ := t
    rw [runTests]
    by_cases he : (run code inp).2 ≠ ""
    · rw [if_pos he]
      unfold bump
      dsimp only
      by_cases hx : s = normalize_error (run code inp).2
      · rw [if_pos hx]
        rw [hx]
      · rw [if_neg hx]
        omega
    · rw [if_neg he]
      by_cases hv : evaluate_output (run code inp).1 expOut = true
      · rw [if_pos hv]
        exact ih hist (idx + 1) acc s
      · rw [if_neg hv]
        exact Nat.le_succ _

/-- The test loop records at most one error signature. -/
theorem runTests_errs_le_one (run : String → String → String × String) (code : String) :
    ∀ (l : List (String × String)) (hist : String → ℕ) (idx : ℕ) (acc : String),
      (runTests run code hist l idx acc).errs.length ≤ 1 := by
  intro l
  induction l with
  | nil => intro hist idx acc; exact Nat.zero_le _
  | cons t rest ih =>
    intro hist idx acc
    obtain ⟨inp, expOut⟩ := t
    rw [runTests]
    by_cases he : (run code inp).2 ≠ ""
    · rw [if_pos he]
      exact Nat.le_refl _
    · rw [if_neg he]
      by_cases hv : evaluate_output (run code inp).1 expOut = true
      · rw [if_pos hv]
        exact ih hist (idx + 1) acc
      · rw [if_neg hv]
        exact Nat.zero_le _

/-- An execution error's index is at least the starting index. -/
theorem runTests_errIdx_ge (run : String → String → String × String) (code : String) :
    ∀ (l : List (String × String)) (hist : String → ℕ) (idx : ℕ) (acc : String) (j : ℕ),
      (runTests run code hist l idx acc).errIdx = some j → idx ≤ j := by
  intro l
  induction l with
  | nil => intro hist idx acc j h; exact absurd h (by simp [runTests])
  | cons t rest ih =>
    intro hist idx acc j h
    obtain ⟨inp, expOut⟩ := t
    rw [runTests] at h
    by_cases he : (run code inp).2 ≠ ""
    · rw [if_pos he] at h
      simp at h
      omega
    · rw [if_neg he] at h
      by_cases hv : evaluate_output (run code inp).1 expOut = true
      · rw [if_pos hv] at h
        have := ih hist (idx + 1) acc j h
        omega
      · rw [if_neg hv] at h
        exact absurd h (by simp)

/-- Fail-fast: when test `j` produces an execution error, exactly the tests
from the starting index through `j` were executed. -/
theorem runTests_fail_fast (run : String → String → String × String) (code : String) :
    ∀ (l : List (String × String)) (hist : String → ℕ) (idx : ℕ) (acc : String) (j : ℕ),
      (runTests run code hist l idx acc).errIdx = some j →
      (runTests run code hist l idx acc).testsRun = j + 1 - idx := by
  intro l
  induction l with
  | nil => intro hist idx acc j h; exact absurd h (by simp [runTests])
  | cons t rest ih =>
    intro hist idx acc j h
    obtain ⟨inp, expOut⟩ := t
    rw [runTests] at h ⊢
    by_cases he : (run code inp).2 ≠ ""
    · rw [if_pos he] at h ⊢
      simp at h
      simp
      omega
    · rw [if_neg he] at h ⊢
      by_cases hv : evaluate_output (run code inp).1 expOut = true
      · rw [if_pos hv] at h ⊢
        have hge := runTests_errIdx_ge run code rest hist (idx + 1) acc j h
        have := ih hist (idx + 1) acc j h
        dsimp only
        omega
      · rw [if_neg hv] at h
        exact absurd h (by simp)

/-- C5: across a session the error-frequency table is pointwise monotone
(counts only increase, entries are never removed), and within one attempt
the test loop records at most one signature, increments each count at most
once, and stops immediately after the test case that errors. -/
theorem error_table_invariant (env : SolveEnv) (tcs : List (String × String)) :
    (∀ (n : ℕ) (s : String),
      (stateAt env tcs n).2 s ≤ (stateAt env tcs (n + 1)).2 s) ∧
    (∀ (run : String → String → String × String) (code : String) (hist : String → ℕ)
      (idx : ℕ) (acc : String),
      (runTests run code hist tcs idx acc).errs.length ≤ 1) ∧
    (∀ (run : String → String → String × String) (code : String) (hist : String → ℕ)
      (idx : ℕ) (acc : String) (s : String),
      (runTests run code hist tcs idx acc).hist s ≤ hist s + 1) ∧
    (∀ (run : String → String → String × String) (code : String) (hist : String → ℕ)
      (idx : ℕ) (acc : String) (j : ℕ),
      (runTests run code hist tcs idx acc).errIdx = some j →
      (runTests run code hist tcs idx acc).testsRun = j + 1 - idx) := by
  refine ⟨?_, ?_, ?_, ?_⟩
  · intro n s
    rw [stateAt]
    exact runTests_hist_mono env.run _ tcs (stateAt env tcs n).2 1 "" s
  · intro run code hist idx acc
    exact runTests_errs_le_one run code tcs hist idx acc
  · intro run code hist idx acc s
    exact runTests_hist_le run code tcs hist idx acc s
  · intro run code hist idx acc j h
    exact runTests_fail_fast run code tcs hist idx acc j h

/-- Always-erroring run function for the C5 witness. -/
def runErrW5 : String → String → String × String := fun _ _ => ("", "boom")

/-- Witness for C5 on the concrete session of `envW4` (mismatching attempts)
and on an always-erroring run: the table entering attempt 2 dominates the
one entering attempt 1, an erroring attempt records one signature and stops
at test 1 of 2. -/
theorem error_table_invariant_witness :
    (stateAt envW4 [("i", "x")] 0).2 "s" ≤ (stateAt envW4 [("i", "x")] 1).2 "s" ∧
    (runTests runErrW5 "c" (fun _ => 0) [("i", "x"), ("i2", "y")] 1 "").errs.length ≤ 1 ∧
    (runTests envW4.run "bad" (fun _ => 0) [("i", "x")] 1 "").hist "s" ≤ 0 + 1 ∧
    (runTests runErrW5 "c" (fun _ => 0) [("i", "x"), ("i2", "y")] 1 "").testsRun = 1 + 1 - 1 := by
  refine ⟨?_, ?_, ?_, ?_⟩
  · exact (error_table_invariant envW4 [("i", "x")]).1 0 "s"
  · exact (error_table_invariant envW4 [("i", "x"), ("i2", "y")]).2.1 runErrW5 "c"
      (fun _ => 0) 1 ""
  · exact (error_table_invariant envW4 [("i", "x")]).2.2.1 envW4.run "bad" (fun _ => 0) 1 "" "s"
  · exact (error_table_invariant envW4 [("i", "x"), ("i2", "y")]).2.2.2 runErrW5 "c"
      (fun _ => 0) 1 "" 1 (by decide)

/-! ### Claim C8: the normalizer is idempotent

Proof outline: a list on which each of the three substitutions acts as the
identity is characterized by a pointwise predicate (`noLine`,
`allFileOkQ`, `allTmpOk`); each substitution establishes its own predicate,
the later substitutions preserve the earlier ones, and the split / strip /
filter / join stage preserves all three; finally that stage is itself
idempotent on its own output. -/

/-- Unfold `allPos` on a cons cell. -/
theorem allPos_cons (pk : List Char → Bool) (c : Char) (cs : List Char) :
    allPos pk (c :: cs) = (pk (c :: cs) && allPos pk cs) := rfl

/-- Every suffix of a list all of whose positions are ok is itself all-ok. -/
theorem allPos_suffix (pk : List Char → Bool) :
    ∀ l l' : List Char, l' <:+ l → allPos pk l = true → allPos pk l' = true := by
  intro l
  induction l with
  | nil =>
    intro l' hs h
    rw [List.suffix_nil.mp hs]
    rfl
  | cons c cs ih =>
    intro l' hs h
    rcases List.suffix_cons_iff.mp hs with he | hs'
    · rw [he]; exact h
    · rw [allPos_cons, Bool.and_eq_true] at h
      exact ih l' hs' h.2

/-- Rebuild a list from a computed prefix: if `l.take n = r` then
`l = r ++ l.drop n`. -/
theorem eq_take_append (l r : List Char) (n : ℕ) (h : l.take n = r) :
    l = r ++ l.drop n := by
  conv_lhs => rw [← l.take_append_drop n]
  rw [h]

/-- Decompose a `line \d+` head. -/
theorem isLineHead_decomp (l : List Char) (h : isLineHead l = true) :
    l = 'l' :: 'i' :: 'n' :: 'e' :: ' ' :: l.drop 5 ∧ headDigit (l.drop 5) = true := by
  rw [isLineHead, Bool.and_eq_true, beq_iff_eq] at h
  exact ⟨eq_take_append l _ 5 h.1, h.2⟩

/-- Decompose a `File "` head. -/
theorem isFileHead_decomp (l : List Char) (h : isFileHead l = true) :
    l = 'F' :: 'i' :: 'l' :: 'e' :: ' ' :: '"' :: l.drop 6 := by
  rw [isFileHead, beq_iff_eq] at h
  exact eq_take_append l _ 6 h

/-- Decompose a `tmp` head. -/
theorem isTmpHead_decomp (l : List Char) (h : isTmpHead l = true) :
    l = 't' :: 'm' :: 'p' :: l.drop 3 ∧ headWord (l.drop 3) = true := by
  rw [isTmpHead, Bool.and_eq_true, beq_iff_eq] at h
  exact ⟨eq_take_append l _ 3 h.1, h.2⟩

/-- A `line \d+` match cannot start at a character other than `l`. -/
theorem isLineHead_false_of_ne (c : Char) (cs : List Char) (h : c ≠ 'l') :
    isLineHead (c :: cs) = false := by
  rw [isLineHead]
  have h1 : ((c :: cs).take 5 == ['l', 'i', 'n', 'e', ' ']) = false := by
    rw [List.take_succ_cons, beq_eq_false_iff_ne]
    intro he
    injection he with he1
    exact h he1
  rw [h1, Bool.false_and]

/-- A `File "` match cannot start at a character other than `F`. -/
theorem isFileHead_false_of_ne (c : Char) (cs : List Char) (h : c ≠ 'F') :
    isFileHead (c :: cs) = false := by
  rw [isFileHead, List.take_succ_cons, beq_eq_false_iff_ne]
  intro he
  injection he with he1
  exact h he1

/-- A `tmp` match cannot start at a character other than `t`. -/
theorem isTmpHead_false_of_ne (c : Char) (cs : List Char) (h : c ≠ 't') :
    isTmpHead (c :: cs) = false := by
  rw [isTmpHead]
  have h1 : ((c :: cs).take 3 == ['t', 'm', 'p']) = false := by
    rw [List.take_succ_cons, beq_eq_false_iff_ne]
    intro he
    injection he with he1
    exact h he1
  rw [h1, Bool.false_and]

/-- `lineSub` copies a non-matching head character. -/
theorem lineSub_cons (c : Char) (cs : List Char) (h : isLineHead (c :: cs) = false) :
    lineSub (c :: cs) = c :: lineSub cs := by
  rw [lineSub, if_neg (by simp [h])]

/-- `fileSub` copies a non-matching head character. -/
theorem fileSub_cons (c : Char) (cs : List Char) (h : isFileHead (c :: cs) = false) :
    fileSub (c :: cs) = c :: fileSub cs := by
  rw [fileSub, if_neg (by simp [h])]

/-- `tmpSub` copies a non-matching head character. -/
theorem tmpSub_cons (c : Char) (cs : List Char) (h : isTmpHead (c :: cs) = false) :
    tmpSub (c :: cs) = c :: tmpSub cs := by
  rw [tmpSub, if_neg (by simp [h])]

/-- Uniform peel: all three substitutions copy a head character that starts
none of the three patterns. -/
theorem lineSub_cons_ne (c : Char) (cs : List Char) (h1 : c ≠ 'F') (h2 : c ≠ 't')
    (h3 : c ≠ 'l') : lineSub (c :: cs) = c :: lineSub cs :=
  lineSub_cons c cs (isLineHead_false_of_ne c cs h3)

/-- Uniform peel for `fileSub`. -/
theorem fileSub_cons_ne (c : Char) (cs : List Char) (h1 : c ≠ 'F') (h2 : c ≠ 't')
    (h3 : c ≠ 'l') : fileSub (c :: cs) = c :: fileSub cs :=
  fileSub_cons c cs (isFileHead_false_of_ne c cs h1)

/-- Uniform peel for `tmpSub`. -/
theorem tmpSub_cons_ne (c : Char) (cs : List Char) (h1 : c ≠ 'F') (h2 : c ≠ 't')
    (h3 : c ≠ 'l') : tmpSub (c :: cs) = c :: tmpSub cs :=
  tmpSub_cons c cs (isTmpHead_false_of_ne c cs h2)

/-- `lineSub` preserves the head character. -/
theorem lineSub_head? (l : List Char) : (lineSub l).head? = l.head? := by
  cases l with
  | nil => rw [lineSub]
  | cons c cs =>
    rw [lineSub]
    split
    · next h =>
      have hd := (isLineHead_decomp _ h).1
      injection hd with h1 h2
      rw [h1]
      rfl
    · rfl

/-- `fileSub` preserves the head character. -/
theorem fileSub_head? (l : List Char) : (fileSub l).head? = l.head? := by
  cases l with
  | nil => rw [fileSub]
  | cons c cs =>
    rw [fileSub]
    split
    · next h =>
      have hd := isFileHead_decomp _ h
      injection hd with h1 h2
      split
      · rw [h1]
        rfl
      · rfl
    · rfl

/-- `tmpSub` preserves the head character. -/
theorem tmpSub_head? (l : List Char) : (tmpSub l).head? = l.head? := by
  cases l with
  | nil => rw [tmpSub]
  | cons c cs =>
    rw [tmpSub]
    split
    · next h =>
      have hd := (isTmpHead_decomp _ h).1
      injection hd with h1 h2
      split
      · rw [h1]
        rfl
      · rfl
    · rfl

/-- Express the first-character digit test through `head?`. -/
theorem headDigit_eq_head? (l : List Char) :
    headDigit l = l.head?.elim false Char.isDigit := by
  cases l <;> rfl

/-- Express the first-character word test through `head?`. -/
theorem headWord_eq_head? (l : List Char) :
    headWord l = l.head?.elim false isWordC := by
  cases l <;> rfl

/-- Unfold `hasQuote` on a cons cell. -/
theorem hasQuote_cons (c : Char) (cs : List Char) :
    hasQuote (c :: cs) = (decide (c = '"') || hasQuote cs) := rfl

/-- Peel one known character through a head-preserving scan that copies it. -/
theorem step_through (f : List Char → List Char)
    (hh : ∀ l, (f l).head? = l.head?)
    (a : Char) (hpa : ∀ cs0, f (a :: cs0) = a :: f cs0)
    (cs tail : List Char) (h : f cs = a :: tail) :
    ∃ cs', cs = a :: cs' ∧ f cs' = tail := by
  have h1 : cs.head? = some a := by rw [← hh cs, h]; rfl
  cases cs with
  | nil => rw [List.head?_nil] at h1; exact absurd h1 (by simp)
  | cons x xs =>
    rw [List.head?_cons] at h1
    injection h1 with hx
    subst hx
    rw [hpa xs] at h
    injection h with h2 h3
    exact ⟨xs, rfl, h3⟩

/-- A `line \d+` head on the image of a head-preserving copying scan forces
the same head shape on the source. -/
theorem lineHead_through (f : List Char → List Char)
    (hh : ∀ l, (f l).head? = l.head?)
    (hp : ∀ c cs, c ≠ 'F' → c ≠ 't' → c ≠ 'l' → f (c :: cs) = c :: f cs)
    (c : Char) (cs : List Char) (h : isLineHead (c :: f cs) = true) :
    c = 'l' ∧ ∃ cs4, cs = 'i' :: 'n' :: 'e' :: ' ' :: cs4 ∧
      f cs = 'i' :: 'n' :: 'e' :: ' ' :: f cs4 := by
  have hd := (isLineHead_decomp _ h).1
  injection hd with h1 h2
  obtain ⟨cs1, rfl, hf1⟩ := step_through f hh 'i'
    (fun cs0 => hp 'i' cs0 (by decide) (by decide) (by decide)) cs _ h2
  obtain ⟨cs2, rfl, hf2⟩ := step_through f hh 'n'
    (fun cs0 => hp 'n' cs0 (by decide) (by decide) (by decide)) cs1 _ hf1
  obtain ⟨cs3, rfl, hf3⟩ := step_through f hh 'e'
    (fun cs0 => hp 'e' cs0 (by decide) (by decide) (by decide)) cs2 _ hf2
  obtain ⟨cs4, rfl, hf4⟩ := step_through f hh ' '
    (fun cs0 => hp ' ' cs0 (by decide) (by decide) (by decide)) cs3 _ hf3
  refine ⟨h1, cs4, rfl, ?_⟩
  rw [hp 'i' _ (by decide) (by decide) (by decide),
    hp 'n' _ (by decide) (by decide) (by decide),
    hp 'e' _ (by decide) (by decide) (by decide),
    hp ' ' _ (by decide) (by decide) (by decide)]

/-- The analogous transfer for a `File "` head (the peeled characters
include `l`, so the copying hypothesis is only guarded by `F` and `t`). -/
theorem fileHead_through (f : List Char → List Char)
    (hh : ∀ l, (f l).head? = l.head?)
    (hp : ∀ c cs, c ≠ 'F' → c ≠ 't' → f (c :: cs) = c :: f cs)
    (c : Char) (cs : List Char) (h : isFileHead (c :: f cs) = true) :
    c = 'F' ∧ ∃ cs5, cs = 'i' :: 'l' :: 'e' :: ' ' :: '"' :: cs5 ∧
      f cs = 'i' :: 'l' :: 'e' :: ' ' :: '"' :: f cs5 := by
  have hd := isFileHead_decomp _ h
  injection hd with h1 h2
  obtain ⟨cs1, rfl, hf1⟩ := step_through f hh 'i'
    (fun cs0 => hp 'i' cs0 (by decide) (by decide)) cs _ h2
  obtain ⟨cs2, rfl, hf2⟩ := step_through f hh 'l'
    (fun cs0 => hp 'l' cs0 (by decide) (by decide)) cs1 _ hf1
  obtain ⟨cs3, rfl, hf3⟩ := step_through f hh 'e'
    (fun cs0 => hp 'e' cs0 (by decide) (by decide)) cs2 _ hf2
  obtain ⟨cs4, rfl, hf4⟩ := step_through f hh ' '
    (fun cs0 => hp ' ' cs0 (by decide) (by decide)) cs3 _ hf3
  obtain ⟨cs5, rfl, hf5⟩ := step_through f hh '"'
    (fun cs0 => hp '"' cs0 (by decide) (by decide)) cs4 _ hf4
  refine ⟨h1, cs5, rfl, ?_⟩
  rw [hp 'i' _ (by decide) (by decide), hp 'l' _ (by decide) (by decide),
    hp 'e' _ (by decide) (by decide), hp ' ' _ (by decide) (by decide),
    hp '"' _ (by decide) (by decide)]

/-- The analogous transfer for a `tmp` head. -/
theorem tmpHead_through (f : List Char → List Char)
    (hh : ∀ l, (f l).head? = l.head?)
    (hp : ∀ c cs, c ≠ 'F' → c ≠ 't' → f (c :: cs) = c :: f cs)
    (c : Char) (cs : List Char) (h : isTmpHead (c :: f cs) = true) :
    c = 't' ∧ ∃ cs2, cs = 'm' :: 'p' :: cs2 ∧ f cs = 'm' :: 'p' :: f cs2 := by
  have hd := (isTmpHead_decomp _ h).1
  injection hd with h1 h2
  obtain ⟨cs1, rfl, hf1⟩ := step_through f hh 'm'
    (fun cs0 => hp 'm' cs0 (by decide) (by decide)) cs _ h2
  obtain ⟨cs2, rfl, hf2⟩ := step_through f hh 'p'
    (fun cs0 => hp 'p' cs0 (by decide) (by decide)) cs1 _ hf1
  refine ⟨h1, cs2, rfl, ?_⟩
  rw [hp 'm' _ (by decide) (by decide), hp 'p' _ (by decide) (by decide)]

/-- Unfold lemmas for the pointwise predicates. -/
theorem noLine_cons (c : Char) (cs : List Char) :
    noLine (c :: cs) = (!isLineHead (c :: cs) && noLine cs) := rfl

/-- Unfold `allFileOkQ` on a cons cell. -/
theorem allFileOkQ_cons (q : Bool) (c : Char) (cs : List Char) :
    allFileOkQ q (c :: cs) = (fileOkAtQ q (c :: cs) && allFileOkQ q cs) := rfl

/-- Unfold `allTmpOk` on a cons cell. -/
theorem allTmpOk_cons (c : Char) (cs : List Char) :
    allTmpOk (c :: cs) = (tmpOkAt (c :: cs) && allTmpOk cs) := rfl

/-- The pattern heads evaluate on their own replacements. -/
theorem isLineHead_pat (w : List Char) :
    isLineHead ('l' :: 'i' :: 'n' :: 'e' :: ' ' :: w) = headDigit w := rfl

/-- A `File "` prefix always matches. -/
theorem isFileHead_pat (w : List Char) :
    isFileHead ('F' :: 'i' :: 'l' :: 'e' :: ' ' :: '"' :: w) = true := rfl

/-- A `tmp` prefix matches iff a word character follows. -/
theorem isTmpHead_pat (w : List Char) :
    isTmpHead ('t' :: 'm' :: 'p' :: w) = headWord w := rfl

/-- The replacement texts are transparent for the position predicates. -/
theorem noLine_lineX (w : List Char) :
    noLine ('l' :: 'i' :: 'n' :: 'e' :: ' ' :: 'X' :: w) = noLine w := rfl

/-- Transparency of `File "X"` for `noLine`. -/
theorem noLine_fileX (w : List Char) :
    noLine ('F' :: 'i' :: 'l' :: 'e' :: ' ' :: '"' :: 'X' :: '"' :: w) = noLine w := rfl

/-- Transparency of `tmpX.py` for `noLine`. -/
theorem noLine_tmpX (w : List Char) :
    noLine ('t' :: 'm' :: 'p' :: 'X' :: '.' :: 'p' :: 'y' :: w) = noLine w := rfl

/-- Transparency of `File "X"` for the file-position predicate. -/
theorem allFileOkQ_fileX (q : Bool) (w : List Char) :
    allFileOkQ q ('F' :: 'i' :: 'l' :: 'e' :: ' ' :: '"' :: 'X' :: '"' :: w)
      = allFileOkQ q w := rfl

/-- Transparency of `tmpX.py` for the file-position predicate. -/
theorem allFileOkQ_tmpX (q : Bool) (w : List Char) :
    allFileOkQ q ('t' :: 'm' :: 'p' :: 'X' :: '.' :: 'p' :: 'y' :: w)
      = allFileOkQ q w := rfl

/-- Transparency of `tmpX.py` for the tmp-position predicate. -/
theorem allTmpOk_tmpX (w : List Char) :
    allTmpOk ('t' :: 'm' :: 'p' :: 'X' :: '.' :: 'p' :: 'y' :: w) = allTmpOk w := rfl

/-- Transparency of `File "X"` for the tmp-position predicate. -/
theorem allTmpOk_fileX (w : List Char) :
    allTmpOk ('F' :: 'i' :: 'l' :: 'e' :: ' ' :: '"' :: 'X' :: '"' :: w) = allTmpOk w := rfl

/-- `fileSub` copies any head other than `F`. -/
theorem fileSub_copy (c : Char) (cs : List Char) (h1 : c ≠ 'F') (h2 : c ≠ 't') :
    fileSub (c :: cs) = c :: fileSub cs :=
  fileSub_cons c cs (isFileHead_false_of_ne c cs h1)

/-- `tmpSub` copies any head other than `t`. -/
theorem tmpSub_copy (c : Char) (cs : List Char) (h1 : c ≠ 'F') (h2 : c ≠ 't') :
    tmpSub (c :: cs) = c :: tmpSub cs :=
  tmpSub_cons c cs (isTmpHead_false_of_ne c cs h2)

/-- Without a quote there is no `File "` head. -/
theorem isFileHead_false_of_no_quote (l : List Char) (h : hasQuote l = false) :
    isFileHead l = false := by
  cases hf : isFileHead l with
  | false => rfl
  | true =>
    exfalso
    rw [isFileHead_decomp _ hf] at h
    simp [hasQuote] at h

/-- `fileSub` is the identity on quote-free lists. -/
theorem fileSub_no_quote : ∀ l : List Char, hasQuote l = false → fileSub l = l := by
  intro l
  induction l with
  | nil => intro _; rw [fileSub]
  | cons c cs ih =>
    intro h
    rw [fileSub_cons c cs (isFileHead_false_of_no_quote _ h)]
    rw [hasQuote_cons, Bool.or_eq_false_iff] at h
    rw [ih h.2]

/-- Quote-free lists pass every file-position check with `q = false`. -/
theorem allFileOkQ_no_quote : ∀ l : List Char, hasQuote l = false →
    allFileOkQ false l = true := by
  intro l
  induction l with
  | nil => intro _; rfl
  | cons c cs ih =>
    intro h
    rw [allFileOkQ_cons, Bool.and_eq_true]
    have h2 := (Bool.or_eq_false_iff.mp ((hasQuote_cons c cs) ▸ h)).2
    refine ⟨?_, ih h2⟩
    rw [fileOkAtQ, isFileHead_false_of_no_quote _ h, Bool.not_false, Bool.true_or]

/-- The three substitutions are the identity on all-ok lists: `lineSub`. -/
theorem lineSub_id (l : List Char) (h : noLine l = true) : lineSub l = l := by
  induction l using lineSub.induct with
  | case1 => rw [lineSub]
  | case2 c cs hhead ih =>
    exfalso
    rw [noLine_cons, Bool.and_eq_true] at h
    rw [hhead] at h
    simp at h
  | case3 c cs hhead ih =>
    rw [noLine_cons, Bool.and_eq_true] at h
    rw [lineSub_cons c cs (by simpa using hhead), ih (by simpa using h.2)]

/-- A verified prefix decomposes the list. -/
theorem startsWithChars_decomp : ∀ pat l : List Char,
    startsWithChars pat l = true → l = pat ++ l.drop pat.length := by
  intro pat
  induction pat with
  | nil => intro l _; rfl
  | cons p ps ih =>
    intro l h
    cases l with
    | nil => exact absurd h (by rw [startsWithChars]; simp)
    | cons c cs =>
      rw [startsWithChars, Bool.and_eq_true, decide_eq_true_eq] at h
      obtain ⟨rfl, h2⟩ := h
      rw [List.cons_append, List.length_cons, List.drop_succ_cons]
      rw [← ih cs h2]

/-- `fileSub` is the identity on lists that pass every file-position check. -/
theorem fileSub_id (l : List Char) (h : allFileOkQ false l = true) : fileSub l = l := by
  induction l using fileSub.induct with
  | case1 => rw [fileSub]
  | case2 c cs hhead hq ih =>
    have horig := h
    rw [allFileOkQ_cons, Bool.and_eq_true] at h
    obtain ⟨h1, h2⟩ := h
    rw [fileOkAtQ, hhead, hq] at h1
    simp only [Bool.not_true, Bool.false_or, Bool.or_false] at h1
    rw [beq_iff_eq] at h1
    have hX := eq_take_append _ _ 2 h1
    have hq' : hasQuote (List.drop 5 cs) = true := hq
    rw [fileSub, if_pos (by simp [hhead]), if_pos (by simp [hq'])]
    have hafter : (List.dropWhile notQuote (List.drop 6 (c :: cs))).tail
        = List.drop 2 (List.drop 6 (c :: cs)) := by
      rw [hX]
      rfl
    rw [hafter]
    have hsuf : List.drop 2 (List.drop 6 (c :: cs)) <:+ (c :: cs) :=
      (List.drop_suffix 2 _).trans (List.drop_suffix 6 _)
    rw [hafter] at ih
    rw [ih (allPos_suffix _ _ _ hsuf horig)]
    conv_rhs => rw [isFileHead_decomp _ hhead]
    rw [hX]
    rfl
  | case3 c cs hhead hq ih =>
    rw [allFileOkQ_cons, Bool.and_eq_true] at h
    rw [fileSub, if_pos (by simp [hhead]), if_neg (by simpa using hq)]
    rw [ih h.2]
  | case4 c cs hhead ih =>
    rw [allFileOkQ_cons, Bool.and_eq_true] at h
    rw [fileSub_cons c cs (by simpa using hhead)]
    rw [ih h.2]

/-- `tmpSub` is the identity on lists that pass every tmp-position check. -/
theorem tmpSub_id (l : List Char) (h : allTmpOk l = true) : tmpSub l = l := by
  induction l using tmpSub.induct with
  | case1 => rw [tmpSub]
  | case2 c cs hhead hpy ih =>
    have horig := h
    rw [allTmpOk_cons, Bool.and_eq_true] at h
    obtain ⟨h1, h2⟩ := h
    rw [tmpOkAt, hhead] at h1
    rw [(by exact hpy : startsWithChars ['.', 'p', 'y']
      (List.dropWhile isWordC (List.drop 3 (c :: cs))) = true)] at h1
    simp only [Bool.and_true, Bool.not_true, Bool.false_or] at h1
    rw [beq_iff_eq] at h1
    have hsplit : List.drop 3 (c :: cs)
        = 'X' :: List.dropWhile isWordC (List.drop 3 (c :: cs)) := by
      have hta := List.takeWhile_append_dropWhile isWordC (List.drop 3 (c :: cs))
      rw [h1] at hta
      exact hta.symm
    have hpy' := startsWithChars_decomp _ _ hpy
    rw [tmpSub, if_pos (by simp [hhead]), if_pos (by exact hpy)]
    show 't' :: 'm' :: 'p' :: 'X' :: '.' :: 'p' :: 'y' ::
      tmpSub (List.drop 3 (List.dropWhile isWordC (List.drop 3 (c :: cs)))) = c :: cs
    have hrs : List.drop 3 (List.dropWhile isWordC (List.drop 3 (c :: cs)))
        <:+ (c :: cs) := by
      refine (List.drop_suffix 3 _).trans ?_
      exact (List.dropWhile_suffix isWordC).trans (List.drop_suffix 3 (c :: cs))
    rw [ih (allPos_suffix _ _ _ hrs horig)]
    conv_rhs => rw [(isTmpHead_decomp _ hhead).1, hsplit, hpy']
    rfl
  | case3 c cs hhead hpy ih =>
    rw [allTmpOk_cons, Bool.and_eq_true] at h
    rw [tmpSub, if_pos (by simp [hhead]), if_neg (by exact hpy)]
    rw [ih h.2]
  | case4 c cs hhead ih =>
    rw [allTmpOk_cons, Bool.and_eq_true] at h
    rw [tmpSub_cons c cs (by simpa using hhead)]
    rw [ih h.2]

/-- Positions whose head cannot start `File "` always pass that check. -/
theorem fileOkAtQ_of_ne (q : Bool) (x : Char) (xs : List Char) (hx : x ≠ 'F') :
    fileOkAtQ q (x :: xs) = true := by
  rw [fileOkAtQ, isFileHead_false_of_ne x xs hx, Bool.not_false, Bool.true_or]

/-- `lineSub` leaves no `line \d+` match behind. -/
theorem noLine_lineSub : ∀ l : List Char, noLine (lineSub l) = true := by
  intro l
  induction l using lineSub.induct with
  | case1 => rw [lineSub]; rfl
  | case2 c cs hhead ih =>
    rw [lineSub, if_pos (by simp [hhead]), noLine_lineX]
    exact ih
  | case3 c cs hhead ih =>
    rw [lineSub_cons c cs (by simpa using hhead), noLine_cons, Bool.and_eq_true]
    refine ⟨?_, ih⟩
    cases hL : isLineHead (c :: lineSub cs) with
    | false => rfl
    | true =>
      exfalso
      obtain ⟨hc, cs4, hcs, hf⟩ :=
        lineHead_through lineSub lineSub_head? lineSub_cons_ne c cs hL
      have hdig := (isLineHead_decomp _ hL).2
      rw [hf] at hdig
      simp only [List.drop_succ_cons, List.drop_zero] at hdig
      have hdig' : headDigit cs4 = true := by
        rw [headDigit_eq_head?, ← lineSub_head?, ← headDigit_eq_head?]
        exact hdig
      apply hhead
      rw [hc, hcs, isLineHead_pat]
      exact hdig'

/-- `fileSub` leaves every file position in replaced or unconstrained form. -/
theorem allFileOkQ_fileSub : ∀ l : List Char, allFileOkQ false (fileSub l) = true := by
  intro l
  induction l using fileSub.induct with
  | case1 => rw [fileSub]; rfl
  | case2 c cs hhead hq ih =>
    rw [fileSub, if_pos (by simp [hhead]), if_pos (by exact hq), allFileOkQ_fileX]
    exact ih
  | case3 c cs hhead hq ih =>
    have hq' : hasQuote (List.drop 6 (c :: cs)) = false := by simpa using hq
    have hdec := isFileHead_decomp _ hhead
    injection hdec with hc hcs
    rw [fileSub, if_pos (by simp [hhead]), if_neg (by exact hq)]
    have hcs' : fileSub cs = cs := by
      rw [hcs, fileSub_copy 'i' _ (by decide) (by decide),
        fileSub_copy 'l' _ (by decide) (by decide),
        fileSub_copy 'e' _ (by decide) (by decide),
        fileSub_copy ' ' _ (by decide) (by decide),
        fileSub_copy '"' _ (by decide) (by decide),
        fileSub_no_quote _ hq']
    rw [hcs', hc, hcs]
    rw [allFileOkQ_cons, Bool.and_eq_true]
    constructor
    · rw [fileOkAtQ, isFileHead_pat, Bool.not_true, Bool.false_or]
      have hdw : List.drop 6
          ('F' :: 'i' :: 'l' :: 'e' :: ' ' :: '"' :: List.drop 6 (c :: cs))
          = List.drop 6 (c :: cs) := rfl
      rw [hdw, hq', Bool.or_false, Bool.not_false, Bool.true_or]
    · rw [allFileOkQ_cons, fileOkAtQ_of_ne false 'i' _ (by decide), Bool.true_and,
        allFileOkQ_cons, fileOkAtQ_of_ne false 'l' _ (by decide), Bool.true_and,
        allFileOkQ_cons, fileOkAtQ_of_ne false 'e' _ (by decide), Bool.true_and,
        allFileOkQ_cons, fileOkAtQ_of_ne false ' ' _ (by decide), Bool.true_and,
        allFileOkQ_cons, fileOkAtQ_of_ne false '"' _ (by decide), Bool.true_and]
      exact allFileOkQ_no_quote _ hq'
  | case4 c cs hhead ih =>
    rw [fileSub_cons c cs (by simpa using hhead), allFileOkQ_cons, Bool.and_eq_true]
    refine ⟨?_, ih⟩
    cases hF : isFileHead (c :: fileSub cs) with
    | false => rw [fileOkAtQ, hF, Bool.not_false, Bool.true_or]
    | true =>
      exfalso
      obtain ⟨hc, cs5, hcs, hf⟩ :=
        fileHead_through fileSub fileSub_head? fileSub_copy c cs hF
      apply hhead
      rw [hc, hcs]
      exact isFileHead_pat cs5

/-- Common step for the two copying branches of `py_after_run_through`. -/
theorem py_after_run_copy (c : Char) (cs : List Char)
    (hcopy : tmpSub (c :: cs) = c :: tmpSub cs)
    (ih : startsWithChars ['.', 'p', 'y'] ((tmpSub cs).dropWhile isWordC) = true →
      startsWithChars ['.', 'p', 'y'] (cs.dropWhile isWordC) = true)
    (h : startsWithChars ['.', 'p', 'y'] ((tmpSub (c :: cs)).dropWhile isWordC) = true) :
    startsWithChars ['.', 'p', 'y'] ((c :: cs).dropWhile isWordC) = true := by
  rw [hcopy] at h
  cases hw : isWordC c with
  | true =>
    rw [List.dropWhile_cons, if_pos (by simp [hw])] at h
    rw [List.dropWhile_cons, if_pos (by simp [hw])]
    exact ih h
  | false =>
    rw [List.dropWhile_cons, if_neg (by simp [hw])] at h
    rw [List.dropWhile_cons, if_neg (by simp [hw])]
    rw [startsWithChars, Bool.and_eq_true, decide_eq_true_eq] at h
    obtain ⟨rfl, h2⟩ := h
    have hdec := startsWithChars_decomp _ _ h2
    obtain ⟨cs1, rfl, hf1⟩ := step_through tmpSub tmpSub_head? 'p'
      (fun cs0 => tmpSub_copy 'p' cs0 (by decide) (by decide)) cs _ hdec
    obtain ⟨cs2, rfl, hf2⟩ := step_through tmpSub tmpSub_head? 'y'
      (fun cs0 => tmpSub_copy 'y' cs0 (by decide) (by decide)) cs1 _ hf1
    rfl

/-- If `tmpSub`'s output has a `.py` right after its leading word run, so did
its input: replacements only ever produce `.py` where the input had one. -/
theorem py_after_run_through : ∀ z : List Char,
    startsWithChars ['.', 'p', 'y'] ((tmpSub z).dropWhile isWordC) = true →
    startsWithChars ['.', 'p', 'y'] (z.dropWhile isWordC) = true := by
  intro z
  induction z using tmpSub.induct with
  | case1 =>
    intro h
    rw [tmpSub] at h
    exact h
  | case2 c cs hhead hpy ih =>
    intro h
    have hdec := (isTmpHead_decomp _ hhead).1
    have hw := (isTmpHead_decomp _ hhead).2
    rw [hdec]
    have hdw : (('t' :: 'm' :: 'p' :: List.drop 3 (c :: cs)).dropWhile isWordC)
        = (List.drop 3 (c :: cs)).dropWhile isWordC := rfl
    rw [hdw]
    exact hpy
  | case3 c cs hhead hpy ih =>
    intro h
    refine py_after_run_copy c cs ?_ ih h
    rw [tmpSub, if_pos (by simp [hhead]), if_neg (by exact hpy)]
  | case4 c cs hhead ih =>
    intro h
    refine py_after_run_copy c cs ?_ ih h
    exact tmpSub_cons c cs (by simpa using hhead)

/-- `tmpSub` leaves every tmp position in replaced or unconstrained form. -/
theorem allTmpOk_tmpSub : ∀ l : List Char, allTmpOk (tmpSub l) = true := by
  intro l
  induction l using tmpSub.induct with
  | case1 => rw [tmpSub]; rfl
  | case2 c cs hhead hpy ih =>
    rw [tmpSub, if_pos (by simp [hhead]), if_pos (by exact hpy), allTmpOk_tmpX]
    exact ih
  | case3 c cs hhead hpy ih =>
    have hcopy : tmpSub (c :: cs) = c :: tmpSub cs := by
      rw [tmpSub, if_pos (by simp [hhead]), if_neg (by exact hpy)]
    rw [hcopy, allTmpOk_cons, Bool.and_eq_true]
    refine ⟨?_, ih⟩
    cases hT : isTmpHead (c :: tmpSub cs) with
    | false => rw [tmpOkAt, hT, Bool.false_and, Bool.not_false, Bool.true_or]
    | true =>
      obtain ⟨hc, cs2, hcs, hf⟩ := tmpHead_through tmpSub tmpSub_head? tmpSub_copy c cs hT
      rw [tmpOkAt, hT, Bool.true_and]
      have hdrop : List.drop 3 (c :: tmpSub cs) = tmpSub cs2 := by
        rw [hf]
        rfl
      rw [hdrop]
      have hpy2 : startsWithChars ['.', 'p', 'y'] ((tmpSub cs2).dropWhile isWordC) = false := by
        cases hx : startsWithChars ['.', 'p', 'y'] ((tmpSub cs2).dropWhile isWordC) with
        | false => rfl
        | true =>
          exfalso
          apply hpy
          have := py_after_run_through cs2 hx
          rw [hcs]
          exact (by exact this : startsWithChars ['.', 'p', 'y']
            ((List.drop 3 (c :: 'm' :: 'p' :: cs2)).dropWhile isWordC) = true)
      rw [hpy2, Bool.not_false, Bool.true_or]
  | case4 c cs hhead ih =>
    rw [tmpSub_cons c cs (by simpa using hhead), allTmpOk_cons, Bool.and_eq_true]
    refine ⟨?_, ih⟩
    cases hT : isTmpHead (c :: tmpSub cs) with
    | false => rw [tmpOkAt, hT, Bool.false_and, Bool.not_false, Bool.true_or]
    | true =>
      exfalso
      obtain ⟨hc, cs2, hcs, hf⟩ := tmpHead_through tmpSub tmpSub_head? tmpSub_copy c cs hT
      apply hhead
      have hw : headWord (tmpSub cs2) = true := by
        have := (isTmpHead_decomp _ hT).2
        rw [hf] at this
        exact (by exact this : headWord (tmpSub cs2) = true)
      have hw' : headWord cs2 = true := by
        rw [headWord_eq_head?, ← tmpSub_head?, ← headWord_eq_head?]
        exact hw
      rw [hc, hcs, isTmpHead_pat]
      exact hw'

/-- Absence of a `line \d+` head transfers along head-preserving copying
scans. -/
theorem noLine_head_through (f : List Char → List Char)
    (hh : ∀ l, (f l).head? = l.head?)
    (hp : ∀ c cs, c ≠ 'F' → c ≠ 't' → c ≠ 'l' → f (c :: cs) = c :: f cs)
    (c : Char) (cs : List Char) (hno : isLineHead (c :: cs) = false) :
    isLineHead (c :: f cs) = false := by
  cases hL : isLineHead (c :: f cs) with
  | false => rfl
  | true =>
    exfalso
    obtain ⟨hc, cs4, hcs, hf⟩ := lineHead_through f hh hp c cs hL
    have hdig := (isLineHead_decomp _ hL).2
    rw [hf] at hdig
    simp only [List.drop_succ_cons, List.drop_zero] at hdig
    have hdig' : headDigit cs4 = true := by
      rw [headDigit_eq_head?, ← hh, ← headDigit_eq_head?]
      exact hdig
    rw [hc, hcs, isLineHead_pat, hdig'] at hno
    exact Bool.true_eq_false ▸ hno

/-- `fileSub` preserves the absence of `line \d+` matches. -/
theorem noLine_fileSub (l : List Char) (h : noLine l = true) :
    noLine (fileSub l) = true := by
  induction l using fileSub.induct with
  | case1 => rw [fileSub]; exact h
  | case2 c cs hhead hq ih =>
    rw [fileSub, if_pos (by simp [hhead]), if_pos (by exact hq), noLine_fileX]
    have hsuf : (List.dropWhile notQuote (List.drop 6 (c :: cs))).tail <:+ (c :: cs) :=
      (List.tail_suffix _).trans ((List.dropWhile_suffix notQuote).trans (List.drop_suffix 6 _))
    exact ih (allPos_suffix _ _ _ hsuf h)
  | case3 c cs hhead hq ih =>
    rw [noLine_cons, Bool.and_eq_true] at h
    rw [fileSub, if_pos (by simp [hhead]), if_neg (by exact hq), noLine_cons,
      Bool.and_eq_true]
    refine ⟨?_, ih h.2⟩
    rw [noLine_head_through fileSub fileSub_head?
      (fun x xs hF hT hL => fileSub_copy x xs hF hT) c cs (by simpa using h.1)]
    rfl
  | case4 c cs hhead ih =>
    rw [noLine_cons, Bool.and_eq_true] at h
    rw [fileSub_cons c cs (by simpa using hhead), noLine_cons, Bool.and_eq_true]
    refine ⟨?_, ih h.2⟩
    rw [noLine_head_through fileSub fileSub_head?
      (fun x xs hF hT hL => fileSub_copy x xs hF hT) c cs (by simpa using h.1)]
    rfl

/-- `tmpSub` preserves the absence of `line \d+` matches. -/
theorem noLine_tmpSub (l : List Char) (h : noLine l = true) :
    noLine (tmpSub l) = true := by
  induction l using tmpSub.induct with
  | case1 => rw [tmpSub]; exact h
  | case2 c cs hhead hpy ih =>
    rw [tmpSub, if_pos (by simp [hhead]), if_pos (by exact hpy), noLine_tmpX]
    have hsuf : List.drop 3 (List.dropWhile isWordC (List.drop 2 cs)) <:+ (c :: cs) := by
      refine (List.drop_suffix 3 _).trans ?_
      refine (List.dropWhile_suffix isWordC).trans ?_
      exact (List.drop_suffix 2 cs).trans (List.suffix_cons c cs)
    exact ih (allPos_suffix _ _ _ hsuf h)
  | case3 c cs hhead hpy ih =>
    rw [noLine_cons, Bool.and_eq_true] at h
    rw [tmpSub, if_pos (by simp [hhead]), if_neg (by exact hpy), noLine_cons,
      Bool.and_eq_true]
    refine ⟨?_, ih h.2⟩
    rw [noLine_head_through tmpSub tmpSub_head?
      (fun x xs hF hT hL => tmpSub_copy x xs hF hT) c cs (by simpa using h.1)]
    rfl
  | case4 c cs hhead ih =>
    rw [noLine_cons, Bool.and_eq_true] at h
    rw [tmpSub_cons c cs (by simpa using hhead), noLine_cons, Bool.and_eq_true]
    refine ⟨?_, ih h.2⟩
    rw [noLine_head_through tmpSub tmpSub_head?
      (fun x xs hF hT hL => tmpSub_copy x xs hF hT) c cs (by simpa using h.1)]
    rfl

/-- A run of word characters contains no quote. -/
theorem hasQuote_of_word_run (run : List Char) (h : ∀ x ∈ run, isWordC x = true) :
    hasQuote run = false := by
  cases hq : hasQuote run with
  | false => rfl
  | true =>
    exfalso
    rw [hasQuote, List.any_eq_true] at hq
    obtain ⟨x, hx, hx2⟩ := hq
    rw [decide_eq_true_eq] at hx2
    subst hx2
    exact absurd (h _ hx) (by decide)

/-- `tmpSub` neither creates nor destroys quotes. -/
theorem hasQuote_tmpSub : ∀ l : List Char, hasQuote (tmpSub l) = hasQuote l := by
  intro l
  induction l using tmpSub.induct with
  | case1 => rw [tmpSub]
  | case2 c cs hhead hpy ih =>
    rw [tmpSub, if_pos (by simp [hhead]), if_pos (by exact hpy)]
    have hout : ∀ w : List Char,
        hasQuote ('t' :: 'm' :: 'p' :: 'X' :: '.' :: 'p' :: 'y' :: w) = hasQuote w :=
      fun w => rfl
    rw [hout, ih]
    have hdec := (isTmpHead_decomp _ hhead).1
    conv_rhs => rw [hdec]
    have hin : hasQuote ('t' :: 'm' :: 'p' :: List.drop 3 (c :: cs))
        = hasQuote (List.drop 3 (c :: cs)) := rfl
    rw [hin]
    have hsplit := List.takeWhile_append_dropWhile isWordC (List.drop 3 (c :: cs))
    have hpy' := startsWithChars_decomp _ _ hpy
    conv_rhs => rw [← hsplit, hpy']
    have hrun : hasQuote (List.takeWhile isWordC (List.drop 3 (c :: cs))) = false :=
      hasQuote_of_word_run (List.takeWhile isWordC (List.drop 3 (c :: cs)))
        (fun x hx => List.mem_takeWhile_imp hx)
    simp only [hasQuote, List.any_append] at hrun ⊢
    rw [hrun, Bool.false_or]
    simp
  | case3 c cs hhead hpy ih =>
    rw [tmpSub, if_pos (by simp [hhead]), if_neg (by exact hpy), hasQuote_cons,
      hasQuote_cons, ih]
  | case4 c cs hhead ih =>
    rw [tmpSub_cons c cs (by simpa using hhead), hasQuote_cons, hasQuote_cons, ih]

/-- A `File "` position already in normal form stays in normal form after
`tmpSub` rewrites the tail. -/
theorem fileOk_tmpSub_head (c : Char) (cs : List Char)
    (h : fileOkAtQ false (c :: cs) = true) :
    fileOkAtQ false (c :: tmpSub cs) = true := by
  cases hF : isFileHead (c :: tmpSub cs) with
  | false => rw [fileOkAtQ, hF]; rfl
  | true =>
    obtain ⟨hc, cs5, hcs, hf⟩ := fileHead_through tmpSub tmpSub_head? tmpSub_copy c cs hF
    subst hc
    subst hcs
    have hFo : isFileHead ('F' :: 'i' :: 'l' :: 'e' :: ' ' :: '"' :: cs5) = true :=
      isFileHead_pat _
    rw [fileOkAtQ, hFo, Bool.not_true, Bool.false_or] at h
    simp only [List.drop_succ_cons, List.drop_zero] at h
    rw [fileOkAtQ, hf, isFileHead_pat, Bool.not_true, Bool.false_or]
    simp only [List.drop_succ_cons, List.drop_zero]
    rw [Bool.or_eq_true] at h
    rcases h with h1 | h2
    · simp only [Bool.or_false, Bool.not_eq_eq_eq_not, Bool.not_true] at h1
      simp only [hasQuote_tmpSub, h1, Bool.or_false, Bool.not_false, Bool.true_or]
    · rw [beq_iff_eq] at h2
      have hcs5 : cs5 = ['X', '"'] ++ List.drop 2 cs5 := eq_take_append cs5 _ 2 h2
      rw [hcs5]
      have hstep : tmpSub (['X', '"'] ++ List.drop 2 cs5)
          = 'X' :: '"' :: tmpSub (List.drop 2 cs5) := by
        rw [List.cons_append, List.cons_append, List.nil_append,
          tmpSub_copy 'X' _ (by decide) (by decide),
          tmpSub_copy '"' _ (by decide) (by decide)]
      rw [hstep]
      simp

/-- `tmpSub` preserves normality of every `File "` position. -/
theorem allFileOk_tmpSub (l : List Char) (h : allFileOkQ false l = true) :
    allFileOkQ false (tmpSub l) = true := by
  induction l using tmpSub.induct with
  | case1 => rw [tmpSub]; exact h
  | case2 c cs hhead hpy ih =>
    rw [tmpSub, if_pos (by simp [hhead]), if_pos (by exact hpy), allFileOkQ_tmpX]
    have hsuf : List.drop 3 (List.dropWhile isWordC (List.drop 2 cs)) <:+ (c :: cs) := by
      refine (List.drop_suffix 3 _).trans ?_
      refine (List.dropWhile_suffix isWordC).trans ?_
      exact (List.drop_suffix 2 cs).trans (List.suffix_cons c cs)
    exact ih (allPos_suffix _ _ _ hsuf h)
  | case3 c cs hhead hpy ih =>
    rw [allFileOkQ_cons, Bool.and_eq_true] at h
    rw [tmpSub, if_pos (by simp [hhead]), if_neg (by exact hpy), allFileOkQ_cons,
      Bool.and_eq_true]
    exact ⟨fileOk_tmpSub_head c cs h.1, ih h.2⟩
  | case4 c cs hhead ih =>
    rw [allFileOkQ_cons, Bool.and_eq_true] at h
    rw [tmpSub_cons c cs (by simpa using hhead), allFileOkQ_cons, Bool.and_eq_true]
    exact ⟨fileOk_tmpSub_head c cs h.1, ih h.2⟩

/-- `takeWhile` over an append stops inside the left part when the right part
contributes nothing. -/
theorem takeWhile_append_stop (p : Char → Bool) (x w : List Char)
    (hw : w.takeWhile p = []) : (x ++ w).takeWhile p = x.takeWhile p := by
  induction x with
  | nil => simpa using hw
  | cons c cs ih => cases h : p c <;> simp [List.takeWhile_cons, h, ih]

/-- `dropWhile` over an append keeps the right part intact when the right
part's head does not satisfy the predicate. -/
theorem dropWhile_append_stop (p : Char → Bool) (x w : List Char)
    (hw : w.dropWhile p = w) : (x ++ w).dropWhile p = x.dropWhile p ++ w := by
  induction x with
  | nil => simpa using hw
  | cons c cs ih => cases h : p c <;> simp [List.dropWhile_cons, h, ih]

/-- Comparing a window of fixed length against a newline-free pattern is not
affected by content after a newline boundary. -/
theorem take_beq_append_nl (pat : List Char) (n : ℕ) (hn : pat.length = n)
    (hpat : ('\n' : Char) ∉ pat) (u v : List Char) :
    ((u ++ '\n' :: v).take n == pat) = (u.take n == pat) := by
  by_cases hle : n ≤ u.length
  · rw [List.take_append_of_le_length hle]
  · push_neg at hle
    have h1 : (u.take n == pat) = false := by
      cases hb : u.take n == pat with
      | false => rfl
      | true =>
        exfalso
        have he := beq_iff_eq.mp hb
        have hlen : (u.take n).length = pat.length := by rw [he]
        rw [List.length_take, hn] at hlen
        omega
    rw [h1]
    cases hb : (u ++ '\n' :: v).take n == pat with
    | false => rfl
    | true =>
      exfalso
      apply hpat
      rw [← beq_iff_eq.mp hb, List.take_append_eq_append_take]
      refine List.mem_append_right _ ?_
      have hd : n - u.length = (n - u.length - 1) + 1 := by omega
      rw [hd, List.take_succ_cons]
      exact List.mem_cons_self _ _

/-- A digit head cannot be supplied by a newline boundary. -/
theorem headDigit_append_nl (u v : List Char) :
    headDigit (u ++ '\n' :: v) = headDigit u := by
  cases u with
  | nil =>
    show ('\n').isDigit = false
    decide
  | cons c cs => rfl

/-- A word-character head cannot be supplied by a newline boundary. -/
theorem headWord_append_nl (u v : List Char) :
    headWord (u ++ '\n' :: v) = headWord u := by
  cases u with
  | nil =>
    show isWordC '\n' = false
    decide
  | cons c cs => rfl

/-- A `line \d+` match cannot cross a newline boundary. -/
theorem isLineHead_append_nl (u v : List Char) :
    isLineHead (u ++ '\n' :: v) = isLineHead u := by
  rw [isLineHead, isLineHead, take_beq_append_nl ['l', 'i', 'n', 'e', ' '] 5 rfl (by decide) u v]
  cases htk : (u.take 5 == ['l', 'i', 'n', 'e', ' ']) with
  | false => rw [Bool.false_and, Bool.false_and]
  | true =>
    rw [Bool.true_and, Bool.true_and]
    have hu : u = 'l' :: 'i' :: 'n' :: 'e' :: ' ' :: u.drop 5 :=
      eq_take_append u _ 5 (beq_iff_eq.mp htk)
    conv_lhs => rw [hu]
    simp only [List.cons_append, List.drop_succ_cons, List.drop_zero]
    exact headDigit_append_nl _ v

/-- A `File "` match cannot cross a newline boundary. -/
theorem isFileHead_append_nl (u v : List Char) :
    isFileHead (u ++ '\n' :: v) = isFileHead u := by
  rw [isFileHead, isFileHead,
    take_beq_append_nl ['F', 'i', 'l', 'e', ' ', '"'] 6 rfl (by decide) u v]

/-- A `tmp\w` match cannot cross a newline boundary. -/
theorem isTmpHead_append_nl (u v : List Char) :
    isTmpHead (u ++ '\n' :: v) = isTmpHead u := by
  rw [isTmpHead, isTmpHead, take_beq_append_nl ['t', 'm', 'p'] 3 rfl (by decide) u v]
  cases htk : (u.take 3 == ['t', 'm', 'p']) with
  | false => rw [Bool.false_and, Bool.false_and]
  | true =>
    rw [Bool.true_and, Bool.true_and]
    have hu : u = 't' :: 'm' :: 'p' :: u.drop 3 :=
      eq_take_append u _ 3 (beq_iff_eq.mp htk)
    conv_lhs => rw [hu]
    simp only [List.cons_append, List.drop_succ_cons, List.drop_zero]
    exact headWord_append_nl _ v

/-- A literal-prefix test against a newline-free pattern ignores content
after a newline boundary. -/
theorem startsWithChars_append_nl : ∀ pat x v : List Char, ('\n' : Char) ∉ pat →
    startsWithChars pat (x ++ '\n' :: v) = startsWithChars pat x := by
  intro pat
  induction pat with
  | nil => intro x v hp; rfl
  | cons p ps ih =>
    intro x v hp
    cases x with
    | nil =>
      have hp1 : p ≠ '\n' := fun h => hp (h ▸ List.mem_cons_self p ps)
      show (decide (p = '\n') && startsWithChars ps v) = false
      rw [decide_eq_false hp1, Bool.false_and]
    | cons c cs =>
      show (decide (p = c) && startsWithChars ps (cs ++ '\n' :: v))
        = (decide (p = c) && startsWithChars ps cs)
      rw [ih cs v (fun h => hp (List.mem_cons_of_mem p h))]

/-- A literal-prefix match survives appending on the right. -/
theorem startsWithChars_append_of : ∀ pat x w : List Char,
    startsWithChars pat x = true → startsWithChars pat (x ++ w) = true := by
  intro pat
  induction pat with
  | nil => intro x w _; rfl
  | cons p ps ih =>
    intro x w h
    cases x with
    | nil => exact absurd h (by rw [startsWithChars]; simp)
    | cons c cs =>
      rw [startsWithChars, Bool.and_eq_true] at h
      show (decide (p = c) && startsWithChars ps (cs ++ w)) = true
      rw [h.1, ih cs w h.2, Bool.and_self]

/-- `hasQuote` distributes over append. -/
theorem hasQuote_append (x y : List Char) :
    hasQuote (x ++ y) = (hasQuote x || hasQuote y) := List.any_append

/-- The `tmp` position check ignores content after a newline boundary. -/
theorem tmpOkAt_append_nl (u v : List Char) :
    tmpOkAt (u ++ '\n' :: v) = tmpOkAt u := by
  rw [tmpOkAt, tmpOkAt, isTmpHead_append_nl]
  cases hT : isTmpHead u with
  | false => rw [Bool.false_and, Bool.false_and, Bool.not_false, Bool.true_or, Bool.true_or]
  | true =>
    rw [Bool.true_and, Bool.true_and]
    have hu : u = 't' :: 'm' :: 'p' :: u.drop 3 := (isTmpHead_decomp u hT).1
    conv_lhs => rw [hu]
    simp only [List.cons_append, List.drop_succ_cons, List.drop_zero]
    have hdw : (u.drop 3 ++ '\n' :: v).dropWhile isWordC
        = (u.drop 3).dropWhile isWordC ++ '\n' :: v :=
      dropWhile_append_stop _ _ _ (List.dropWhile_cons_of_neg (by decide))
    have htw : (u.drop 3 ++ '\n' :: v).takeWhile isWordC = (u.drop 3).takeWhile isWordC :=
      takeWhile_append_stop _ _ _ (List.takeWhile_cons_of_neg (by decide))
    rw [hdw, htw, startsWithChars_append_nl ['.', 'p', 'y'] _ v (by decide)]

/-- The `File "` position check across a newline boundary: quotes after the
newline enter through the pending-quote flag. -/
theorem fileOkAtQ_append_nl (q : Bool) (u v : List Char) :
    fileOkAtQ q (u ++ '\n' :: v) = fileOkAtQ (hasQuote v || q) u := by
  rw [fileOkAtQ, fileOkAtQ, isFileHead_append_nl]
  cases hF : isFileHead u with
  | false => rw [Bool.not_false, Bool.true_or, Bool.true_or]
  | true =>
    rw [Bool.not_true, Bool.false_or, Bool.false_or]
    have hu : u = 'F' :: 'i' :: 'l' :: 'e' :: ' ' :: '"' :: u.drop 6 := isFileHead_decomp u hF
    conv_lhs => rw [hu]
    simp only [List.cons_append, List.drop_succ_cons, List.drop_zero]
    rw [hasQuote_append]
    have hnl : hasQuote ('\n' :: v) = hasQuote v := rfl
    rw [hnl, take_beq_append_nl ['X', '"'] 2 rfl (by decide) (u.drop 6) v, Bool.or_assoc]

/-- `noLine` splits at a newline boundary. -/
theorem noLine_append_nl (u v : List Char) :
    noLine (u ++ '\n' :: v) = (noLine u && noLine v) := by
  induction u with
  | nil =>
    show noLine ('\n' :: v) = (true && noLine v)
    rw [noLine_cons, isLineHead_false_of_ne '\n' v (by decide), Bool.not_false,
      Bool.true_and]
  | cons c cs ih =>
    show noLine (c :: (cs ++ '\n' :: v)) = (noLine (c :: cs) && noLine v)
    have hh : isLineHead (c :: (cs ++ '\n' :: v)) = isLineHead (c :: cs) :=
      isLineHead_append_nl (c :: cs) v
    rw [noLine_cons, noLine_cons, hh, ih, Bool.and_assoc]

/-- `allTmpOk` splits at a newline boundary. -/
theorem allTmpOk_append_nl (u v : List Char) :
    allTmpOk (u ++ '\n' :: v) = (allTmpOk u && allTmpOk v) := by
  induction u with
  | nil =>
    show allTmpOk ('\n' :: v) = (true && allTmpOk v)
    have ht : tmpOkAt ('\n' :: v) = true := by
      rw [tmpOkAt, isTmpHead_false_of_ne '\n' v (by decide), Bool.false_and,
        Bool.not_false, Bool.true_or]
    rw [allTmpOk_cons, ht, Bool.true_and]
  | cons c cs ih =>
    show allTmpOk (c :: (cs ++ '\n' :: v)) = (allTmpOk (c :: cs) && allTmpOk v)
    have hh : tmpOkAt (c :: (cs ++ '\n' :: v)) = tmpOkAt (c :: cs) :=
      tmpOkAt_append_nl (c :: cs) v
    rw [allTmpOk_cons, allTmpOk_cons, hh, ih, Bool.and_assoc]

/-- `allFileOkQ` splits at a newline boundary, threading the quotes of the
right part into the pending-quote flag of the left part. -/
theorem allFileOkQ_append_nl (q : Bool) (u v : List Char) :
    allFileOkQ q (u ++ '\n' :: v) = (allFileOkQ (hasQuote v || q) u && allFileOkQ q v) := by
  induction u with
  | nil =>
    show allFileOkQ q ('\n' :: v) = (true && allFileOkQ q v)
    have hf : fileOkAtQ q ('\n' :: v) = true := by
      rw [fileOkAtQ, isFileHead_false_of_ne '\n' v (by decide), Bool.not_false, Bool.true_or]
    rw [allFileOkQ_cons, hf, Bool.true_and]
  | cons c cs ih =>
    show allFileOkQ q (c :: (cs ++ '\n' :: v))
      = (allFileOkQ (hasQuote v || q) (c :: cs) && allFileOkQ q v)
    have hh : fileOkAtQ q (c :: (cs ++ '\n' :: v)) = fileOkAtQ (hasQuote v || q) (c :: cs) :=
      fileOkAtQ_append_nl q (c :: cs) v
    rw [allFileOkQ_cons, allFileOkQ_cons, hh, ih, Bool.and_assoc]

/-- `noLine` over a joined line list splits off the first line. -/
theorem noLine_joinNl_cons (a : List Char) (ls : List (List Char)) :
    noLine (joinNl (a :: ls)) = (noLine a && noLine (joinNl ls)) := by
  cases ls with
  | nil =>
    show noLine a = (noLine a && true)
    rw [Bool.and_true]
  | cons b r =>
    show noLine (a ++ '\n' :: joinNl (b :: r)) = (noLine a && noLine (joinNl (b :: r)))
    rw [noLine_append_nl]

/-- `allTmpOk` over a joined line list splits off the first line. -/
theorem allTmpOk_joinNl_cons (a : List Char) (ls : List (List Char)) :
    allTmpOk (joinNl (a :: ls)) = (allTmpOk a && allTmpOk (joinNl ls)) := by
  cases ls with
  | nil =>
    show allTmpOk a = (allTmpOk a && true)
    rw [Bool.and_true]
  | cons b r =>
    show allTmpOk (a ++ '\n' :: joinNl (b :: r)) = (allTmpOk a && allTmpOk (joinNl (b :: r)))
    rw [allTmpOk_append_nl]

/-- `allFileOkQ` over a joined line list splits off the first line. -/
theorem allFileOkQ_joinNl_cons (q : Bool) (a : List Char) (ls : List (List Char)) :
    allFileOkQ q (joinNl (a :: ls))
      = (allFileOkQ (hasQuote (joinNl ls) || q) a && allFileOkQ q (joinNl ls)) := by
  cases ls with
  | nil =>
    show allFileOkQ q a = (allFileOkQ (hasQuote [] || q) a && true)
    have h0 : hasQuote ([] : List Char) = false := rfl
    rw [h0, Bool.false_or, Bool.and_true]
  | cons b r =>
    show allFileOkQ q (a ++ '\n' :: joinNl (b :: r))
      = (allFileOkQ (hasQuote (joinNl (b :: r)) || q) a && allFileOkQ q (joinNl (b :: r)))
    rw [allFileOkQ_append_nl]

/-- Quotes of a joined line list are the quotes of its lines. -/
theorem hasQuote_joinNl : ∀ M : List (List Char),
    hasQuote (joinNl M) = M.any hasQuote := by
  intro M
  induction M with
  | nil => rfl
  | cons a ls ih =>
    cases ls with
    | nil =>
      show hasQuote a = (hasQuote a || false)
      rw [Bool.or_false]
    | cons b r =>
      show hasQuote (a ++ '\n' :: joinNl (b :: r)) = (hasQuote a || (b :: r).any hasQuote)
      rw [hasQuote_append, ← ih]
      have hnl : hasQuote ('\n' :: joinNl (b :: r)) = hasQuote (joinNl (b :: r)) := rfl
      rw [hnl]

/-- `splitNl` never returns an empty list of lines. -/
theorem splitNl_ne_nil : ∀ l : List Char, splitNl l ≠ [] := by
  intro l
  cases l with
  | nil => simp [splitNl]
  | cons c cs =>
    rw [splitNl]
    by_cases hc : c = '\n'
    · rw [if_pos hc]; simp
    · rw [if_neg hc]
      cases splitNl cs <;> simp [consHead]

/-- Lines produced by `splitNl` contain no newline. -/
theorem splitNl_mem_no_nl : ∀ (l : List Char) (a : List Char),
    a ∈ splitNl l → ('\n' : Char) ∉ a := by
  intro l
  induction l with
  | nil =>
    intro a ha
    rw [splitNl] at ha
    simp at ha
    simp [ha]
  | cons c cs ih =>
    intro a ha
    rw [splitNl] at ha
    by_cases hc : c = '\n'
    · rw [if_pos hc] at ha
      rcases List.mem_cons.mp ha with h | h
      · simp [h]
      · exact ih a h
    · rw [if_neg hc] at ha
      cases hM : splitNl cs with
      | nil => exact absurd hM (splitNl_ne_nil cs)
      | cons m ms =>
        rw [hM] at ha
        rcases List.mem_cons.mp ha with h | h
        · subst h
          intro hmem
          rcases List.mem_cons.mp hmem with h1 | h1
          · exact hc h1.symm
          · exact ih m (hM ▸ List.mem_cons_self m ms) h1
        · exact ih a (hM ▸ List.mem_cons_of_mem m h)

/-- `consHead` on a nonempty line list prepends to the first line. -/
theorem joinNl_consHead (c : Char) (m : List Char) (ms : List (List Char)) :
    joinNl (consHead c (m :: ms)) = c :: joinNl (m :: ms) := by
  cases ms <;> rfl

/-- Splitting and rejoining is the identity. -/
theorem joinNl_splitNl : ∀ l : List Char, joinNl (splitNl l) = l := by
  intro l
  induction l with
  | nil => rfl
  | cons c cs ih =>
    rw [splitNl]
    by_cases hc : c = '\n'
    · rw [if_pos hc]
      cases hM : splitNl cs with
      | nil => exact absurd hM (splitNl_ne_nil cs)
      | cons m ms =>
        show [] ++ '\n' :: joinNl (m :: ms) = c :: cs
        rw [List.nil_append, hc, ← hM, ih]
    · rw [if_neg hc]
      cases hM : splitNl cs with
      | nil => exact absurd hM (splitNl_ne_nil cs)
      | cons m ms =>
        rw [joinNl_consHead, ← hM, ih]

/-- Splitting a newline-free list yields that single line. -/
theorem splitNl_no_nl : ∀ a : List Char, ('\n' : Char) ∉ a → splitNl a = [a] := by
  intro a
  induction a with
  | nil => intro _; rfl
  | cons c cs ih =>
    intro h
    have hc : c ≠ '\n' := fun he => h (he ▸ List.mem_cons_self c cs)
    rw [splitNl, if_neg hc, ih (fun hm => h (List.mem_cons_of_mem c hm))]
    rfl

/-- Splitting after a newline-free first segment peels that segment. -/
theorem splitNl_append_nl : ∀ a w : List Char, ('\n' : Char) ∉ a →
    splitNl (a ++ '\n' :: w) = a :: splitNl w := by
  intro a
  induction a with
  | nil =>
    intro w _
    show splitNl ('\n' :: w) = [] :: splitNl w
    rw [splitNl, if_pos rfl]
  | cons c cs ih =>
    intro w h
    have hc : c ≠ '\n' := fun he => h (he ▸ List.mem_cons_self c cs)
    show splitNl (c :: (cs ++ '\n' :: w)) = (c :: cs) :: splitNl w
    rw [splitNl, if_neg hc, ih w (fun hm => h (List.mem_cons_of_mem c hm))]
    rfl

/-- Joining and resplitting a nonempty list of newline-free lines is the
identity. -/
theorem splitNl_joinNl : ∀ M : List (List Char), M ≠ [] →
    (∀ a ∈ M, ('\n' : Char) ∉ a) → splitNl (joinNl M) = M := by
  intro M
  induction M with
  | nil => intro h _; exact absurd rfl h
  | cons a ls ih =>
    intro _ hlines
    cases ls with
    | nil =>
      show splitNl (joinNl [a]) = [a]
      exact splitNl_no_nl a (hlines a (List.mem_cons_self a []))
    | cons b r =>
      show splitNl (a ++ '\n' :: joinNl (b :: r)) = a :: (b :: r)
      rw [splitNl_append_nl a _ (hlines a (List.mem_cons_self a _)),
        ih (by simp) (fun x hx => hlines x (List.mem_cons_of_mem a hx))]

/-- Enumerate the whitespace characters. -/
theorem isSpaceC_cases (c : Char) (h : isSpaceC c = true) :
    c = ' ' ∨ c = '\t' ∨ c = '\n' ∨ c = '\r' ∨ c = '\x0b' ∨ c = '\x0c' := by
  rw [isSpaceC] at h
  simp only [Bool.or_eq_true, decide_eq_true_eq] at h
  tauto

/-- Whitespace characters are not word characters. -/
theorem spaceC_not_wordC (c : Char) (h : isSpaceC c = true) : isWordC c = false := by
  rcases isSpaceC_cases c h with h1 | h1 | h1 | h1 | h1 | h1 <;> subst h1 <;> decide

/-- Whitespace characters are not quotes. -/
theorem spaceC_not_quote (c : Char) (h : isSpaceC c = true) : decide (c = '"') = false := by
  rcases isSpaceC_cases c h with h1 | h1 | h1 | h1 | h1 | h1 <;> subst h1 <;> decide

/-- A run of whitespace contains no quote. -/
theorem hasQuote_spaces (w : List Char) (hw : ∀ x ∈ w, isSpaceC x = true) :
    hasQuote w = false := by
  cases hq : hasQuote w with
  | false => rfl
  | true =>
    exfalso
    rw [hasQuote, List.any_eq_true] at hq
    obtain ⟨x, hx, hp⟩ := hq
    rw [spaceC_not_quote x (hw x hx)] at hp
    exact Bool.false_ne_true hp

/-- Splitting a list into its right-trimmed part and the trimmed suffix. -/
theorem rdropWhile_append_rtakeWhile (p : Char → Bool) (l : List Char) :
    l.rdropWhile p ++ l.rtakeWhile p = l := by
  rw [List.rdropWhile, List.rtakeWhile, ← List.reverse_append,
    List.takeWhile_append_dropWhile, List.reverse_reverse]

/-- The head survivor of a `dropWhile` fails the predicate. -/
theorem head_dropWhile_false (p : Char → Bool) : ∀ (l : List Char) (x : Char) (xs : List Char),
    l.dropWhile p = x :: xs → p x = false := by
  intro l
  induction l with
  | nil => intro x xs h; exact absurd h (by simp)
  | cons c cs ih =>
    intro x xs h
    rw [List.dropWhile_cons] at h
    by_cases hp : p c = true
    · rw [if_pos hp] at h; exact ih x xs h
    · rw [if_neg hp] at h
      injection h with h1 _
      subst h1
      exact Bool.eq_false_iff.mpr hp

/-- Stripping is idempotent. -/
theorem stripChars_idem (l : List Char) : stripChars (stripChars l) = stripChars l := by
  rw [stripChars, stripChars]
  have h1 : ((l.dropWhile isSpaceC).rdropWhile isSpaceC).dropWhile isSpaceC
      = (l.dropWhile isSpaceC).rdropWhile isSpaceC := by
    cases hd : (l.dropWhile isSpaceC).rdropWhile isSpaceC with
    | nil => rfl
    | cons x xs =>
      apply List.dropWhile_cons_of_neg
      obtain ⟨t, ht⟩ := List.rdropWhile_prefix isSpaceC (l.dropWhile isSpaceC)
      rw [hd] at ht
      have hx := head_dropWhile_false isSpaceC l x (xs ++ t) (by rw [← ht]; rfl)
      rw [hx]
      exact Bool.false_ne_true
  rw [h1, List.rdropWhile_idempotent]

/-- The stripped list is a sublist of the original. -/
theorem stripChars_sublist (l : List Char) : List.Sublist (stripChars l) l :=
  ((List.rdropWhile_prefix isSpaceC _).sublist).trans (List.dropWhile_sublist _)

/-- A line whose head is not a space does not start with `  File `. -/
theorem startsFileSpace_false_of_ne (c : Char) (cs : List Char) (h : c ≠ ' ') :
    startsFileSpace (c :: cs) = false := by
  rw [startsFileSpace, List.take_succ_cons, beq_eq_false_iff_ne]
  intro he
  injection he with he1
  exact h he1

/-- The keep test survives stripping the line. -/
theorem keepLine_strip (l : List Char) (h : keepLine l = true) :
    keepLine (stripChars l) = true := by
  rw [keepLine, Bool.and_eq_true] at h
  rw [keepLine, Bool.and_eq_true]
  refine ⟨by rw [stripChars_idem]; exact h.1, ?_⟩
  cases hs : stripChars l with
  | nil => exact absurd (hs ▸ h.1) (by decide)
  | cons x xs =>
    have hx : isSpaceC x = false := by
      rw [stripChars] at hs
      obtain ⟨t, ht⟩ := List.rdropWhile_prefix isSpaceC (l.dropWhile isSpaceC)
      rw [hs] at ht
      exact head_dropWhile_false isSpaceC l x (xs ++ t) (by rw [← ht]; rfl)
    have hxs : x ≠ ' ' := fun he => by rw [he] at hx; exact absurd hx (by decide)
    rw [startsFileSpace_false_of_ne x xs hxs]
    rfl

/-- `allPos` transfers from an extended list to its prefix when each position
check transfers. -/
theorem allPos_of_append (pk : List Char → Bool) (u w : List Char)
    (hmono : ∀ s : List Char, pk (s ++ w) = true → pk s = true)
    (h : allPos pk (u ++ w) = true) : allPos pk u = true := by
  induction u with
  | nil => rfl
  | cons c cs ih =>
    simp only [List.cons_append] at h
    rw [allPos_cons, Bool.and_eq_true] at h
    rw [allPos_cons, Bool.and_eq_true]
    exact ⟨hmono (c :: cs) h.1, ih h.2⟩

/-- A `line \d+` match survives appending on the right. -/
theorem lineHead_append_of (s w : List Char) (h : isLineHead s = true) :
    isLineHead (s ++ w) = true := by
  have hu := isLineHead_decomp s h
  rw [hu.1]
  show isLineHead ('l' :: 'i' :: 'n' :: 'e' :: ' ' :: (s.drop 5 ++ w)) = true
  rw [isLineHead_pat]
  have h2 := hu.2
  cases hd : s.drop 5 with
  | nil => rw [hd] at h2; exact absurd h2 (by decide)
  | cons d r =>
    rw [hd] at h2
    show headDigit (d :: (r ++ w)) = true
    exact h2

/-- The `File "` position check transfers from a list extended by trailing
whitespace back to the trimmed list. -/
theorem fileOkAtQ_append_space (q : Bool) (s w : List Char)
    (hw : ∀ x ∈ w, isSpaceC x = true) (h : fileOkAtQ q (s ++ w) = true) :
    fileOkAtQ q s = true := by
  rw [fileOkAtQ] at h ⊢
  cases hF : isFileHead s with
  | false => rw [Bool.not_false, Bool.true_or]
  | true =>
    rw [Bool.not_true, Bool.false_or]
    have hu := isFileHead_decomp s hF
    have hFw : isFileHead (s ++ w) = true := by
      rw [hu]
      show isFileHead ('F' :: 'i' :: 'l' :: 'e' :: ' ' :: '"' :: (s.drop 6 ++ w)) = true
      exact isFileHead_pat _
    rw [hFw, Bool.not_true, Bool.false_or] at h
    rw [hu] at h
    simp only [List.cons_append, List.drop_succ_cons, List.drop_zero] at h
    rw [hasQuote_append, hasQuote_spaces w hw, Bool.or_false] at h
    rw [Bool.or_eq_true] at h
    rcases h with h1 | h2
    · rw [h1, Bool.true_or]
    · rw [Bool.or_eq_true]
      refine Or.inr ?_
      cases hx : s.drop 6 with
      | nil =>
        exfalso
        rw [hx] at h2
        have he := beq_iff_eq.mp h2
        have hmem : 'X' ∈ w := (List.take_subset 2 w) (by rw [show ([] : List Char) ++ w = w from rfl] at he; rw [he]; exact List.mem_cons_self _ _)
        exact absurd (hw 'X' hmem) (by decide)
      | cons a x2 =>
        cases x2 with
        | nil =>
          exfalso
          rw [hx] at h2
          have he := beq_iff_eq.mp h2
          have he' : a :: w.take 1 = ['X', '"'] := he
          injection he' with h3 h4
          have hmem : '"' ∈ w := (List.take_subset 1 w) (by rw [h4]; exact List.mem_cons_self _ _)
          exact absurd (hw '"' hmem) (by decide)
        | cons b x3 =>
          rw [hx] at h2
          rw [beq_iff_eq]
          exact beq_iff_eq.mp h2

/-- The `tmp` position check transfers from a list extended by trailing
whitespace back to the trimmed list. -/
theorem tmpOkAt_append_space (s w : List Char)
    (hw : ∀ x ∈ w, isSpaceC x = true) (h : tmpOkAt (s ++ w) = true) :
    tmpOkAt s = true := by
  rw [tmpOkAt] at h ⊢
  cases hT : isTmpHead s with
  | false => rw [Bool.false_and, Bool.not_false, Bool.true_or]
  | true =>
    rw [Bool.true_and]
    have hu := (isTmpHead_decomp s hT).1
    have h2 := (isTmpHead_decomp s hT).2
    have hTw : isTmpHead (s ++ w) = true := by
      rw [hu]
      show isTmpHead ('t' :: 'm' :: 'p' :: (s.drop 3 ++ w)) = true
      rw [isTmpHead_pat]
      cases hd : s.drop 3 with
      | nil => rw [hd] at h2; exact absurd h2 (by decide)
      | cons e r =>
        rw [hd] at h2
        show headWord (e :: (r ++ w)) = true
        exact h2
    rw [hTw, Bool.true_and] at h
    rw [hu] at h
    simp only [List.cons_append, List.drop_succ_cons, List.drop_zero] at h
    have htw0 : w.takeWhile isWordC = [] := by
      cases w with
      | nil => rfl
      | cons x xs =>
        apply List.takeWhile_cons_of_neg
        rw [spaceC_not_wordC x (hw x (List.mem_cons_self x xs))]
        exact Bool.false_ne_true
    have hdw0 : w.dropWhile isWordC = w := by
      cases w with
      | nil => rfl
      | cons x xs =>
        apply List.dropWhile_cons_of_neg
        rw [spaceC_not_wordC x (hw x (List.mem_cons_self x xs))]
        exact Bool.false_ne_true
    rw [dropWhile_append_stop _ _ _ hdw0, takeWhile_append_stop _ _ _ htw0] at h
    rw [Bool.or_eq_true] at h
    rcases h with h1 | h2'
    · rw [Bool.or_eq_true]
      refine Or.inl ?_
      cases hs : startsWithChars ['.', 'p', 'y'] ((s.drop 3).dropWhile isWordC) with
      | false => rfl
      | true =>
        exfalso
        rw [startsWithChars_append_of _ _ w hs] at h1
        exact absurd h1 (by decide)
    · rw [Bool.or_eq_true]
      exact Or.inr h2'

/-- Stripping a line preserves the absence of `line \d+` matches. -/
theorem noLine_stripChars (l : List Char) (h : noLine l = true) :
    noLine (stripChars l) = true := by
  rw [stripChars]
  have h1 : noLine (l.dropWhile isSpaceC) = true :=
    allPos_suffix _ _ _ (List.dropWhile_suffix isSpaceC) h
  rw [← rdropWhile_append_rtakeWhile isSpaceC (l.dropWhile isSpaceC)] at h1
  refine allPos_of_append _ _ _ (fun s hs => ?_) h1
  cases hLs : isLineHead s with
  | false => rfl
  | true =>
    rw [lineHead_append_of s _ hLs] at hs
    exact absurd hs (by decide)

/-- Stripping a line preserves normality of `File "` positions. -/
theorem allFileOkQ_stripChars (q : Bool) (l : List Char) (h : allFileOkQ q l = true) :
    allFileOkQ q (stripChars l) = true := by
  rw [stripChars]
  have h1 : allFileOkQ q (l.dropWhile isSpaceC) = true :=
    allPos_suffix _ _ _ (List.dropWhile_suffix isSpaceC) h
  rw [← rdropWhile_append_rtakeWhile isSpaceC (l.dropWhile isSpaceC)] at h1
  refine allPos_of_append _ _ _ (fun s hs => ?_) h1
  exact fileOkAtQ_append_space q s _ (fun x hx => List.mem_rtakeWhile_imp hx) hs

/-- Stripping a line preserves normality of `tmp` positions. -/
theorem allTmpOk_stripChars (l : List Char) (h : allTmpOk l = true) :
    allTmpOk (stripChars l) = true := by
  rw [stripChars]
  have h1 : allTmpOk (l.dropWhile isSpaceC) = true :=
    allPos_suffix _ _ _ (List.dropWhile_suffix isSpaceC) h
  rw [← rdropWhile_append_rtakeWhile isSpaceC (l.dropWhile isSpaceC)] at h1
  refine allPos_of_append _ _ _ (fun s hs => ?_) h1
  exact tmpOkAt_append_space s _ (fun x hx => List.mem_rtakeWhile_imp hx) hs

/-- The `File "` position check is antitone in the pending-quote flag. -/
theorem fileOkAtQ_mono (l : List Char) (q qq : Bool) (himp : qq = true → q = true)
    (h : fileOkAtQ q l = true) : fileOkAtQ qq l = true := by
  rw [fileOkAtQ] at h ⊢
  cases hq' : qq with
  | true => rw [himp hq'] at h; exact h
  | false =>
    revert h
    cases hH : hasQuote (List.drop 6 l) <;> cases hF : isFileHead l <;>
      cases htk : (List.take 2 (List.drop 6 l) == ['X', '"']) <;> cases hq : q <;> decide

/-- `allFileOkQ` is antitone in the pending-quote flag. -/
theorem allFileOkQ_mono (l : List Char) (q qq : Bool) (himp : qq = true → q = true)
    (h : allFileOkQ q l = true) : allFileOkQ qq l = true := by
  induction l with
  | nil => rfl
  | cons c cs ih =>
    rw [allFileOkQ_cons, Bool.and_eq_true] at h
    rw [allFileOkQ_cons, Bool.and_eq_true]
    exact ⟨fileOkAtQ_mono _ q qq himp h.1, ih h.2⟩

/-- Quote presence is monotone along sublists. -/
theorem hasQuote_sublist (x y : List Char) (hs : List.Sublist x y)
    (h : hasQuote x = true) : hasQuote y = true := by
  rw [hasQuote, List.any_eq_true] at h ⊢
  obtain ⟨a, ha, hp⟩ := h
  exact ⟨a, hs.subset ha, hp⟩

/-- The filter/strip pass preserves the absence of `line \d+` matches. -/
theorem noLine_lineProc : ∀ M : List (List Char),
    noLine (joinNl M) = true →
    noLine (joinNl ((M.filter keepLine).map stripChars)) = true := by
  intro M
  induction M with
  | nil => intro h; exact h
  | cons a ls ih =>
    intro h
    rw [noLine_joinNl_cons, Bool.and_eq_true] at h
    cases hk : keepLine a with
    | false =>
      rw [List.filter_cons_of_neg (by simp [hk])]
      exact ih h.2
    | true =>
      rw [List.filter_cons_of_pos hk, List.map_cons, noLine_joinNl_cons, Bool.and_eq_true]
      exact ⟨noLine_stripChars a h.1, ih h.2⟩

/-- The filter/strip pass preserves normality of `tmp` positions. -/
theorem allTmpOk_lineProc : ∀ M : List (List Char),
    allTmpOk (joinNl M) = true →
    allTmpOk (joinNl ((M.filter keepLine).map stripChars)) = true := by
  intro M
  induction M with
  | nil => intro h; exact h
  | cons a ls ih =>
    intro h
    rw [allTmpOk_joinNl_cons, Bool.and_eq_true] at h
    cases hk : keepLine a with
    | false =>
      rw [List.filter_cons_of_neg (by simp [hk])]
      exact ih h.2
    | true =>
      rw [List.filter_cons_of_pos hk, List.map_cons, allTmpOk_joinNl_cons, Bool.and_eq_true]
      exact ⟨allTmpOk_stripChars a h.1, ih h.2⟩

/-- The filter/strip pass preserves normality of `File "` positions: dropped
lines and trimmed whitespace only remove quotes, and fewer pending quotes
only weakens the check. -/
theorem allFileOkQ_lineProc : ∀ (M : List (List Char)) (q : Bool),
    allFileOkQ q (joinNl M) = true →
    allFileOkQ q (joinNl ((M.filter keepLine).map stripChars)) = true := by
  intro M
  induction M with
  | nil => intro q h; exact h
  | cons a ls ih =>
    intro q h
    rw [allFileOkQ_joinNl_cons, Bool.and_eq_true] at h
    cases hk : keepLine a with
    | false =>
      rw [List.filter_cons_of_neg (by simp [hk])]
      exact ih q h.2
    | true =>
      rw [List.filter_cons_of_pos hk, List.map_cons, allFileOkQ_joinNl_cons, Bool.and_eq_true]
      refine ⟨?_, ih q h.2⟩
      refine allFileOkQ_mono _ _ _ (fun hq => ?_) (allFileOkQ_stripChars _ a h.1)
      rw [Bool.or_eq_true] at hq ⊢
      rcases hq with h1 | h1
      · left
        rw [hasQuote_joinNl, List.any_eq_true] at h1 ⊢
        obtain ⟨b, hb, hqb⟩ := h1
        rw [List.mem_map] at hb
        obtain ⟨b0, hb0, rfl⟩ := hb
        exact ⟨b0, List.mem_of_mem_filter hb0, hasQuote_sublist _ _ (stripChars_sublist b0) hqb⟩
      · right; exact h1

/-- The filter/strip pass is idempotent on line lists. -/
theorem filterStrip_idem (M : List (List Char)) :
    ((((M.filter keepLine).map stripChars).filter keepLine).map stripChars)
      = (M.filter keepLine).map stripChars := by
  induction M with
  | nil => rfl
  | cons a ls ih =>
    cases hk : keepLine a with
    | false => rw [List.filter_cons_of_neg (by simp [hk])]; exact ih
    | true =>
      rw [List.filter_cons_of_pos hk, List.map_cons,
        List.filter_cons_of_pos (keepLine_strip a hk), List.map_cons, stripChars_idem, ih]

/-- The character-level normalizer pipeline is idempotent: its output has
every pattern position in normal form, survives the three substitutions
unchanged, and resplits into its own kept, stripped lines. -/
theorem normalizeChars_idem (l : List Char) :
    normalizeChars (normalizeChars l) = normalizeChars l := by
  rw [normalizeChars]
  have hm1 : noLine (tmpSub (fileSub (lineSub l))) = true :=
    noLine_tmpSub _ (noLine_fileSub _ (noLine_lineSub l))
  have hm2 : allFileOkQ false (tmpSub (fileSub (lineSub l))) = true :=
    allFileOk_tmpSub _ (allFileOkQ_fileSub _)
  have hm3 : allTmpOk (tmpSub (fileSub (lineSub l))) = true := allTmpOk_tmpSub _
  have hJ : joinNl (splitNl (tmpSub (fileSub (lineSub l)))) = tmpSub (fileSub (lineSub l)) :=
    joinNl_splitNl _
  have ho1 : noLine (normalizeChars l) = true := by
    rw [normalizeChars]
    exact noLine_lineProc _ (by rw [hJ]; exact hm1)
  have ho2 : allFileOkQ false (normalizeChars l) = true := by
    rw [normalizeChars]
    exact allFileOkQ_lineProc _ false (by rw [hJ]; exact hm2)
  have ho3 : allTmpOk (normalizeChars l) = true := by
    rw [normalizeChars]
    exact allTmpOk_lineProc _ (by rw [hJ]; exact hm3)
  rw [lineSub_id _ ho1, fileSub_id _ ho2, tmpSub_id _ ho3]
  have hlines : ∀ a ∈ ((splitNl (tmpSub (fileSub (lineSub l)))).filter keepLine).map stripChars,
      ('\n' : Char) ∉ a := by
    intro a ha
    rw [List.mem_map] at ha
    obtain ⟨b, hb, rfl⟩ := ha
    intro hmem
    exact splitNl_mem_no_nl _ b (List.mem_of_mem_filter hb) ((stripChars_sublist b).subset hmem)
  cases hM : ((splitNl (tmpSub (fileSub (lineSub l)))).filter keepLine).map stripChars with
  | nil =>
    rw [normalizeChars, hM]
    rfl
  | cons a ms =>
    rw [normalizeChars, hM, splitNl_joinNl (a :: ms) (by simp) (hM ▸ hlines), ← hM,
      filterStrip_idem]

/-- **C8**: the error normalizer is idempotent: for every string `x`,
`normalize_error (normalize_error x) = normalize_error x`. -/
theorem normalize_error_idempotent (s : String) :
    normalize_error (normalize_error s) = normalize_error s := by
  by_cases hs : s = ""
  · subst hs; rfl
  · have hin : normalize_error s = (normalizeChars s.toList).asString := by
      rw [normalize_error, if_neg hs]
    rw [hin]
    by_cases h2 : (normalizeChars s.toList).asString = ""
    · rw [h2, normalize_error, if_pos rfl]
    · rw [normalize_error, if_neg h2]
      have ht : ((normalizeChars s.toList).asString).toList = normalizeChars s.toList := rfl
      rw [ht, normalizeChars_idem]
